import Mathlib

/-!
A verification development for the DosMangos exchange-rate backend.

The SQLite store, its bidirectional view, and the resolver logic of
`backend/app/database.py`, `backend/app/rate_service.py`,
`backend/app/oxr_client.py` and `backend/app/dolar_scraper.py` are embedded
shallowly:

* the `exchange_rates` table (unique on `(from_currency, to_currency, date,
  rate_type)`, `INSERT OR REPLACE` writes) is a `List Record`;
* SQLite `REAL` rates are modelled as `ℚ` (the arithmetic used — comparison
  with zero, reciprocal, product — is exact here, so floating tolerances in
  the informal properties become exact equalities);
* `TEXT` ISO dates (`YYYY-MM-DD`) are modelled by their day numbers since
  1970-01-01 (`Nat`): the source only ever compares dates for equality,
  orders them, adds whole days, and takes weekdays, and ISO strings of valid
  dates are in bijection with day numbers.  1970-01-01 was a Thursday, so
  Python's `datetime.weekday` (Monday = 0 … Sunday = 6) becomes
  `(day + 3) % 7`;
* Python dicts are association lists written by an overwrite-or-append
  update, preserving insertion order exactly as CPython does.
-/

namespace DosMangos

/-- A row of the `exchange_rates` table (`database.py`, `init_database`).
The `id` column is a fresh UUID that no query reads, so it is omitted. -/
structure Record where
  from_currency : String
  to_currency : String
  rate : ℚ
  rate_type : String
  date : Nat
  source : String
  fetched_at : String
deriving Repr, DecidableEq

/-- The whole table. -/
abbrev Store := List Record

/-- The unique key of the table: `UNIQUE(from_currency, to_currency, date, rate_type)`. -/
def recordKey (r : Record) : String × String × Nat × String :=
  (r.from_currency, r.to_currency, r.date, r.rate_type)

/-- A store with at most one row per unique key — the invariant the
`UNIQUE` constraint plus `INSERT OR REPLACE` maintains. -/
def keyNodup (store : Store) : Prop := (store.map recordKey).Nodup

instance : DecidablePred keyNodup := fun store =>
  inferInstanceAs (Decidable (store.map recordKey).Nodup)

/-- `WHERE from_currency = f AND to_currency = t AND date = d AND rate_type = rt`. -/
def matchesKey (r : Record) (f t : String) (d : Nat) (rt : String) : Bool :=
  r.from_currency == f && r.to_currency == t && r.date == d && r.rate_type == rt

/-- The (unique, under `keyNodup`) row with the given key, if stored. -/
def findRecord (store : Store) (f t : String) (d : Nat) (rt : String) : Option Record :=
  store.find? (fun r => matchesKey r f t d rt)

/-- `insert_rate` (`database.py` lines 102–130): `INSERT OR REPLACE` deletes
any row conflicting on the unique key and inserts the new row. -/
def insertRate (store : Store) (f t : String) (rate : ℚ) (rt : String) (d : Nat)
    (src fetchedAt : String) : Store :=
  store.filter (fun r => !(matchesKey r f t d rt)) ++
    [{ from_currency := f, to_currency := t, rate := rate, rate_type := rt,
       date := d, source := src, fetched_at := fetchedAt }]

/-- A row of the `exchange_rates_bidirectional` view. -/
structure ViewEntry where
  from_currency : String
  to_currency : String
  rate : ℚ
  rate_type : String
  date : Nat
  source : String
  rate_source : String
deriving Repr, DecidableEq

/-- The `NOT EXISTS` subquery of the view: some row is stored under the
given key (its rate need not be positive). -/
def hasStored (store : Store) (f t : String) (d : Nat) (rt : String) : Bool :=
  store.any (fun e2 => matchesKey e2 f t d rt)

/-- The direct branch of the view. -/
def directEntryOf (r : Record) : ViewEntry :=
  { from_currency := r.from_currency, to_currency := r.to_currency, rate := r.rate,
    rate_type := r.rate_type, date := r.date, source := r.source, rate_source := "direct" }

/-- The inverse branch of the view. -/
def inverseEntryOf (r : Record) : ViewEntry :=
  { from_currency := r.to_currency, to_currency := r.from_currency, rate := 1 / r.rate,
    rate_type := r.rate_type, date := r.date,
    source := r.source ++ " (computed inverse)", rate_source := "inverse" }

/-- The `exchange_rates_bidirectional` view (`database.py` lines 55–91):
direct rows with `rate > 0`, then inverse rows `1/rate` for rows with
`rate > 0` whose reversed key has no stored row at all. -/
def bidirectionalView (store : Store) : List ViewEntry :=
  (store.filter (fun r => decide (0 < r.rate))).map directEntryOf ++
  (store.filter (fun e1 =>
      decide (0 < e1.rate) &&
      !(hasStored store e1.to_currency e1.from_currency e1.date e1.rate_type))).map
    inverseEntryOf

/-- Python-dict lookup on an association list. -/
def lookupStr {α : Type} (m : List (String × α)) (k : String) : Option α :=
  (m.find? (fun p => p.1 == k)).map Prod.snd

/-- Python-dict assignment `m[k] = v`: overwrite in place if the key exists,
else append (CPython preserves insertion order). -/
def setEntry {α : Type} (m : List (String × α)) (k : String) (v : α) :
    List (String × α) :=
  if m.any (fun p => p.1 == k) then
    m.map (fun p => if p.1 == k then (k, v) else p)
  else m ++ [(k, v)]

/-- The resolver's result shape: `{currency: {rate_type: rate}}`. -/
abbrev RatesMap := List (String × List (String × ℚ))

/-- The `CASE rate_type` priority of `get_rate`'s no-classification query
(`database.py` lines 160–167): official 1, blue 2, mep 3, ccl 4, else 5. -/
def ratePriority (rt : String) : Nat :=
  if rt == "official" then 1
  else if rt == "blue" then 2
  else if rt == "mep" then 3
  else if rt == "ccl" then 4
  else 5

/-- One comparison step of `ORDER BY` the priority `LIMIT 1`: keep the
candidate of smaller priority, the earlier one on ties. -/
def pickStep (best : Option Record) (r : Record) : Option Record :=
  match best with
  | none => some r
  | some b =>
      if ratePriority r.rate_type < ratePriority b.rate_type then some r else some b

/-- `ORDER BY` the priority `LIMIT 1`: a row of minimal priority.  SQLite
leaves the order of priority-ties unspecified; this picks the earliest such
row, a sound refinement (ties cannot occur between distinct ranked
classifications, which each appear at most once per key). -/
def pickByPriority (rows : List Record) : Option Record :=
  rows.foldl pickStep none

/-- `get_rate` (`database.py` lines 133–172).  Both branches query the
`exchange_rates` *table*, not the bidirectional view. -/
def getRate (store : Store) (f t : String) (d : Nat) (rt? : Option String) :
    Option ℚ :=
  match rt? with
  | some rt => (findRecord store f t d rt).map Record.rate
  | none =>
      (pickByPriority (store.filter
        (fun r => r.from_currency == f && r.to_currency == t && r.date == d))).map
        Record.rate

/-- The rows `SELECT`ed by `get_all_rates_for_base` (`database.py` lines
188–200) from the bidirectional view.  The `ORDER BY to_currency, rate_type`
of the no-classification query is omitted: under `keyNodup` the view holds
at most one row per `(from, to, date, rate_type)`, so row order cannot
change the grouped result. -/
def viewRowsForBase (store : Store) (base : String) (d : Nat)
    (rt? : Option String) : List ViewEntry :=
  match rt? with
  | some rt =>
      (bidirectionalView store).filter
        (fun v => v.from_currency == base && v.date == d && v.rate_type == rt)
  | none =>
      (bidirectionalView store).filter
        (fun v => v.from_currency == base && v.date == d)

/-- One iteration of the grouping loop of `get_all_rates_for_base`
(`database.py` lines 206–210): `result[currency][rate_type] = rate`,
creating the inner dict on first sight of a currency. -/
def groupStep (result : RatesMap) (v : ViewEntry) : RatesMap :=
  setEntry result v.to_currency
    (setEntry ((lookupStr result v.to_currency).getD []) v.rate_type v.rate)

/-- The grouping loop of `get_all_rates_for_base` (`database.py` lines
204–210). -/
def groupRows (rows : List ViewEntry) : RatesMap :=
  rows.foldl groupStep []

/-- `get_all_rates_for_base` (`database.py` lines 175–212). -/
def getAllRatesForBase (store : Store) (base : String) (d : Nat)
    (rt? : Option String) : RatesMap :=
  groupRows (viewRowsForBase store base d rt?)

/-- The rate the bidirectional view resolves for one pair, date and
classification: the store's answer for `from → to` after direct/inverse
derivation. -/
def resolveRate (store : Store) (f t : String) (d : Nat) (c : String) :
    Option ℚ :=
  (lookupStr (getAllRatesForBase store f d (some c)) t).bind
    (fun m => lookupStr m c)

/-- The outcome of one provider fetch-and-store call: the updated store on
success, or the raised exception's message. -/
abbrev Fetcher := Store → Except String Store

/-- The `try/except` wrapped around every provider call (`rate_service.py`
lines 39–42, 59–62, 113–117): on failure the exception is swallowed and the
store is left as it was. -/
def tryFetch (f : Fetcher) (store : Store) : Store :=
  match f store with
  | .ok store' => store'
  | .error _ => store

/-- The `USD → all` leg of `_interpolate_via_usd` (`rate_service.py` lines
109–117): read it from the store; if empty, make one best-effort primary
fetch and re-read (a swallowed failure leaves the store, hence the empty
reading, unchanged). -/
def usdLegAfterRetry (oxr : Fetcher) (store : Store) (d : Nat)
    (rt? : Option String) : RatesMap :=
  let usdRates := getAllRatesForBase store "USD" d rt?
  if usdRates.isEmpty then getAllRatesForBase (tryFetch oxr store) "USD" d rt?
  else usdRates

/-- The inner loop of `_interpolate_via_usd` (`rate_service.py` lines
127–131): for every classification in the `base → USD` map that is also in
the `USD → target` map, the product of the two legs.  The loop reads
`base_to_usd_rates["USD"][rt]` by key; since a Python dict holds each key
once, iterating its pairs and using the pair's value is the same thing. -/
def interpInner (ut busd : List (String × ℚ)) : List (String × ℚ) :=
  busd.foldl
    (fun acc p =>
      match lookupStr ut p.1 with
      | some u => setEntry acc p.1 (p.2 * u)
      | none => acc)
    []

/-- The outer loop of `_interpolate_via_usd` (`rate_service.py` lines
122–134): targets absent from the `USD → all` map are skipped, and a target
is added only when its interpolated classification map is non-empty. -/
def interpOuter (usdRates : RatesMap) (busd : List (String × ℚ))
    (targets : List String) : RatesMap :=
  targets.foldl
    (fun rates target =>
      match lookupStr usdRates target with
      | none => rates
      | some ut =>
          let interpolated := interpInner ut busd
          if interpolated.isEmpty then rates
          else setEntry rates target interpolated)
    []

/-- `_interpolate_via_usd` (`rate_service.py` lines 90–136). -/
def interpolateViaUsd (oxr : Fetcher) (store : Store) (base : String)
    (targets : List String) (d : Nat) (rt? : Option String) : RatesMap :=
  let baseToUsdRates := getAllRatesForBase store base d rt?
  match lookupStr baseToUsdRates "USD" with
  | none => []
  | some busd =>
      let usdRates := usdLegAfterRetry oxr store d rt?
      if usdRates.isEmpty then []
      else interpOuter usdRates busd targets

/-- The projection of `get_rates` (`rate_service.py` lines 69–74): the dict
comprehension keeping the requested symbols that are present. -/
def projectSymbols (all : RatesMap) (symbols : List String) : RatesMap :=
  symbols.foldl
    (fun acc s =>
      match lookupStr all s with
      | some m => setEntry acc s m
      | none => acc)
    []

/-- Python's `dict.update`: write every pair of `ext`, in order, into `m`. -/
def updateDict (m ext : RatesMap) : RatesMap :=
  ext.foldl (fun acc p => setEntry acc p.1 p.2) m

/-- Steps 1–2 of `get_rates` (`rate_service.py` lines 32–62): the store
after the two best-effort, conditionally-triggered provider calls.  Python's
`not symbols` is true for `None` and for an empty list alike, and
`symbols and any(...)` is false for both. -/
def storeAfterProviderChecks (oxr scraper : Fetcher) (store : Store)
    (base : String) (symbols : Option (List String)) (d : Nat) : Store :=
  let store1 :=
    if base == "USD" && (getAllRatesForBase store base d (some "official")).isEmpty
    then tryFetch oxr store
    else store
  let requestTouchesUsdArs :=
    base == "USD" || base == "ARS" ||
      (match symbols with
       | some ss => !ss.isEmpty && ss.any (fun s => s == "USD" || s == "ARS")
       | none => false)
  let arsInRequest :=
    (match symbols with
     | none => true
     | some ss => ss.isEmpty || ss.contains "ARS") || base == "ARS"
  if requestTouchesUsdArs && arsInRequest then
    let checkBase := if base == "USD" || base == "ARS" then base else "USD"
    let existingBlue := getAllRatesForBase store1 checkBase d (some "blue")
    let hasArsBlue := !existingBlue.isEmpty && (lookupStr existingBlue "ARS").isSome
    if !hasArsBlue then tryFetch scraper store1 else store1
  else store1

/-- `get_rates` (`rate_service.py` lines 10–87).  `if symbols:` is false for
`None` and `[]`, in which cases the full mapping is returned; the
interpolation step runs only when `symbols` is truthy and fewer currencies
were found than requested. -/
def getRates (oxr scraper : Fetcher) (store : Store) (base : String)
    (symbols : Option (List String)) (d : Nat) (rt? : Option String) :
    RatesMap :=
  let store2 := storeAfterProviderChecks oxr scraper store base symbols d
  let allBaseRates := getAllRatesForBase store2 base d rt?
  match symbols with
  | none => allBaseRates
  | some ss =>
      if ss.isEmpty then allBaseRates
      else
        let rates := projectSymbols allBaseRates ss
        if rates.length < ss.length then
          let missingSymbols := ss.filter (fun s => (lookupStr rates s).isNone)
          let interpolated := interpolateViaUsd oxr store2 base missingSymbols d rt?
          updateDict rates interpolated
        else rates

/-- A provider whose every call fails. -/
def failFetch : Fetcher := fun _ => .error "unavailable"

/-- The resolution `get_rates` computes when no provider call can change the
store: everything is read from, and interpolated over, the given store. -/
def resolveFromStore (store : Store) (base : String)
    (symbols : Option (List String)) (d : Nat) (rt? : Option String) :
    RatesMap :=
  getRates failFetch failFetch store base symbols d rt?

/-- The storage loop of `fetch_and_store_rates` (`oxr_client.py` lines
122–141): every fetched `USD → currency` pair except `USD` itself is stored
verbatim as an `official` rate.  The HTTP fetch and the timestamp-to-date
conversion that produce `rates` and `d` are outside this loop. -/
def oxrStep (d : Nat) (fetchedAt : String) (s : Store) (p : String × ℚ) :
    Store :=
  if p.1 == "USD" then s
  else insertRate s "USD" p.1 p.2 "official" d "openexchangerates" fetchedAt

def storeOxrRates (store : Store) (rates : List (String × ℚ)) (d : Nat)
    (fetchedAt : String) : Store :=
  rates.foldl (oxrStep d fetchedAt) store

/-- The row filter of `fetch_historical_blue_rates` (`dolar_scraper.py`
lines 70–76): `if compra and venta` — Python truthiness keeps a parsed pair
iff both values are present and non-zero. -/
def keepRow (compra venta : Option ℚ) : Bool :=
  match compra, venta with
  | some c, some v => !(c == 0) && !(v == 0)
  | _, _ => false

/-- Python's `datetime.weekday` on a day number: Monday = 0 … Sunday = 6;
day 0 (1970-01-01) was a Thursday (3).  Friday is 4. -/
def pythonWeekday (d : Nat) : Nat := (d + 3) % 7

/-- The first storage loop of `scrape_and_store_ars_rates`
(`dolar_scraper.py` lines 116–141): per batch row dated `d` with values
`(compra, venta)`, store `USD→ARS = compra` and `ARS→USD = 1/venta`, both
`blue` with source `"ambito"`. -/
def arsDirectStep (fetchedAt : String) (s : Store) (row : Nat × ℚ × ℚ) :
    Store :=
  let s1 := insertRate s "USD" "ARS" row.2.1 "blue" row.1 "ambito" fetchedAt
  insertRate s1 "ARS" "USD" (1 / row.2.2) "blue" row.1 "ambito" fetchedAt

def storeArsDirect (store : Store) (batch : List (Nat × ℚ × ℚ))
    (fetchedAt : String) : Store :=
  batch.foldl (arsDirectStep fetchedAt) store

/-- The second storage loop of `scrape_and_store_ars_rates`
(`dolar_scraper.py` lines 143–197): every Friday-dated row is copied,
rates unchanged, onto the following Saturday and Sunday with source
`"ambito (weekend)"`. -/
def arsWeekendStep (fetchedAt : String) (s : Store) (row : Nat × ℚ × ℚ) :
    Store :=
  if pythonWeekday row.1 == 4 then
    let saturday := row.1 + 1
    let sunday := row.1 + 2
    let s1 := insertRate s "USD" "ARS" row.2.1 "blue" saturday
      "ambito (weekend)" fetchedAt
    let s2 := insertRate s1 "ARS" "USD" (1 / row.2.2) "blue" saturday
      "ambito (weekend)" fetchedAt
    let s3 := insertRate s2 "USD" "ARS" row.2.1 "blue" sunday
      "ambito (weekend)" fetchedAt
    insertRate s3 "ARS" "USD" (1 / row.2.2) "blue" sunday
      "ambito (weekend)" fetchedAt
  else s

def storeArsWeekend (store : Store) (batch : List (Nat × ℚ × ℚ))
    (fetchedAt : String) : Store :=
  batch.foldl (arsWeekendStep fetchedAt) store

/-- `scrape_and_store_ars_rates` (`dolar_scraper.py` lines 86–199) after the
batch has been fetched: the direct loop, then the weekend-copy loop. -/
def scrapeAndStoreArsRates (store : Store) (batch : List (Nat × ℚ × ℚ))
    (fetchedAt : String) : Store :=
  storeArsWeekend (storeArsDirect store batch fetchedAt) batch fetchedAt

/-- A lookup through both dict levels of a `RatesMap`. -/
def lookupRT (m : RatesMap) (cur c : String) : Option ℚ :=
  (lookupStr m cur).bind (fun mm => lookupStr mm c)

section DictLemmas

variable {α : Type}

theorem lookupStr_eq_none_iff {m : List (String × α)} {k : String} :
    lookupStr m k = none ↔ ∀ p ∈ m, p.1 ≠ k := by
  simp [lookupStr, List.find?_eq_none]

theorem mem_of_lookupStr_eq_some {m : List (String × α)} {k : String} {v : α}
    (h : lookupStr m k = some v) : (k, v) ∈ m := by
  unfold lookupStr at h
  cases hf : m.find? (fun p => p.1 == k) with
  | none => rw [hf] at h; exact absurd h (by simp)
  | some q =>
      rw [hf] at h
      have hq := List.find?_some hf
      have hmem : q ∈ m := List.mem_of_find?_eq_some hf
      have hk : q.1 = k := by simpa using hq
      have hv : q.2 = v := by simpa using h
      have : q = (k, v) := by cases q; simp_all
      rwa [this] at hmem

theorem lookupStr_eq_some_of_mem {m : List (String × α)}
    (hnd : (m.map Prod.fst).Nodup) {k : String} {v : α} (h : (k, v) ∈ m) :
    lookupStr m k = some v := by
  cases hf : lookupStr m k with
  | none =>
      rw [lookupStr_eq_none_iff] at hf
      exact absurd rfl (hf (k, v) h)
  | some v' =>
      have h' : (k, v') ∈ m := mem_of_lookupStr_eq_some hf
      have := List.inj_on_of_nodup_map hnd h h' rfl
      simp_all

theorem lookupStr_setEntry_self (m : List (String × α)) (k : String) (v : α) :
    lookupStr (setEntry m k v) k = some v := by
  unfold setEntry
  by_cases h : m.any (fun p => p.1 == k) = true
  · rw [if_pos h]
    have hcomp : ((fun p : String × α => p.1 == k) ∘
        (fun p : String × α => if p.1 == k then (k, v) else p)) =
        (fun p : String × α => p.1 == k) := by
      funext p
      by_cases hp : (p.1 == k) = true
      · show ((if (p.1 == k) = true then (k, v) else p).1 == k) = (p.1 == k)
        rw [if_pos hp, hp]
        exact beq_self_eq_true k
      · show ((if (p.1 == k) = true then (k, v) else p).1 == k) = (p.1 == k)
        rw [if_neg hp]
    rw [lookupStr, List.find?_map, hcomp]
    obtain ⟨p, hp, hpk⟩ := List.any_eq_true.mp h
    have hsome : (m.find? (fun p => p.1 == k)).isSome := by
      rw [List.find?_isSome]; exact ⟨p, hp, hpk⟩
    cases hf : m.find? (fun p => p.1 == k) with
    | none => rw [hf] at hsome; simp at hsome
    | some q =>
        have hq' : q.1 = k := by simpa using List.find?_some hf
        simp [hq']
  · rw [if_neg h, lookupStr, List.find?_append]
    have hnone : m.find? (fun p => p.1 == k) = none := by
      rw [List.find?_eq_none]
      intro p hp
      exact fun hc => h (List.any_eq_true.mpr ⟨p, hp, hc⟩)
    simp [hnone]

theorem lookupStr_setEntry_ne (m : List (String × α)) {k k' : String} (v : α)
    (hne : k' ≠ k) : lookupStr (setEntry m k v) k' = lookupStr m k' := by
  unfold setEntry
  by_cases h : m.any (fun p => p.1 == k) = true
  · rw [if_pos h]
    have hcomp : ((fun p : String × α => p.1 == k') ∘
        (fun p : String × α => if p.1 == k then (k, v) else p)) =
        (fun p : String × α => p.1 == k') := by
      funext p
      show ((if (p.1 == k) = true then (k, v) else p).1 == k') = (p.1 == k')
      by_cases hp : (p.1 == k) = true
      · have hp' : p.1 = k := by simpa using hp
        rw [if_pos hp]
        have h1 : (((k, v) : String × α).1 == k') = false := by
          simp [Ne.symm hne]
        have h2 : (p.1 == k') = false := by simp [hp', Ne.symm hne]
        rw [h1, h2]
      · rw [if_neg hp]
    rw [lookupStr, List.find?_map, hcomp]
    cases hf : m.find? (fun p => p.1 == k') with
    | none => simp [lookupStr, hf]
    | some q =>
        have hq : q.1 = k' := by simpa using List.find?_some hf
        simp [lookupStr, hf, hq, hne]
  · rw [if_neg h, lookupStr, List.find?_append]
    have hlast : (([((k, v) : String × α)]).find? (fun p => p.1 == k')) = none := by
      simp [Ne.symm hne]
    rw [hlast]
    cases hf : m.find? (fun p => p.1 == k') <;> simp [lookupStr, hf]

theorem lookupStr_setEntry (m : List (String × α)) (k k' : String) (v : α) :
    lookupStr (setEntry m k v) k' = if k' = k then some v else lookupStr m k' := by
  by_cases h : k' = k
  · subst h; simp [lookupStr_setEntry_self]
  · simp [h, lookupStr_setEntry_ne m v h]

theorem mem_setEntry {m : List (String × α)} {k : String} {v : α}
    {p : String × α} (h : p ∈ setEntry m k v) : p = (k, v) ∨ p ∈ m := by
  unfold setEntry at h
  by_cases hc : m.any (fun q => q.1 == k) = true
  · rw [if_pos hc] at h
    obtain ⟨q, hq, hfq⟩ := List.mem_map.mp h
    by_cases hqk : (q.1 == k) = true
    · rw [if_pos hqk] at hfq
      exact Or.inl hfq.symm
    · rw [if_neg hqk] at hfq
      exact Or.inr (hfq ▸ hq)
  · rw [if_neg hc] at h
    rcases List.mem_append.mp h with h1 | h2
    · exact Or.inr h1
    · exact Or.inl (List.mem_singleton.mp h2)

theorem keys_setEntry_nodup {m : List (String × α)}
    (hnd : (m.map Prod.fst).Nodup) (k : String) (v : α) :
    ((setEntry m k v).map Prod.fst).Nodup := by
  unfold setEntry
  by_cases hc : m.any (fun q => q.1 == k) = true
  · rw [if_pos hc]
    have hcomp : (Prod.fst ∘ fun p : String × α =>
        if p.1 == k then (k, v) else p) = Prod.fst := by
      funext p
      show (if (p.1 == k) = true then (k, v) else p).1 = p.1
      by_cases hp : (p.1 == k) = true
      · have hp' : p.1 = k := by simpa using hp
        rw [if_pos hp]
        exact hp'.symm
      · rw [if_neg hp]
    rw [List.map_map, hcomp]
    exact hnd
  · rw [if_neg hc]
    have hk : k ∉ m.map Prod.fst := by
      intro hmem
      obtain ⟨p, hp, hpk⟩ := List.mem_map.mp hmem
      exact hc (List.any_eq_true.mpr ⟨p, hp, by simp [hpk]⟩)
    rw [List.map_append]
    exact List.Nodup.append hnd (List.nodup_singleton k)
      (by simpa [List.disjoint_singleton] using hk)

end DictLemmas

section StoreLemmas

theorem find?_eq_some_of_unique {α : Type} {l : List α} {p : α → Bool} {w0 : α}
    (hmem : w0 ∈ l) (hp : p w0 = true) (huniq : ∀ w ∈ l, p w = true → w = w0) :
    l.find? p = some w0 := by
  cases hf : l.find? p with
  | none =>
      rw [List.find?_eq_none] at hf
      exact absurd hp (hf w0 hmem)
  | some w =>
      rw [huniq w (List.mem_of_find?_eq_some hf) (List.find?_some hf)]

theorem find?_filter_eq {α : Type} {l : List α} {p q : α → Bool}
    (h : ∀ x, p x = true → q x = true) : (l.filter q).find? p = l.find? p := by
  induction l with
  | nil => rfl
  | cons x l ih =>
      by_cases hq : q x = true
      · rw [List.filter_cons_of_pos hq]
        by_cases hp : p x = true
        · rw [List.find?_cons_of_pos _ hp, List.find?_cons_of_pos _ hp]
        · rw [List.find?_cons_of_neg _ hp, List.find?_cons_of_neg _ hp, ih]
      · have hp : ¬p x = true := fun hpx => hq (h x hpx)
        rw [List.filter_cons_of_neg hq, ih, List.find?_cons_of_neg _ hp]

theorem matchesKey_iff {r : Record} {f t : String} {d : Nat} {rt : String} :
    matchesKey r f t d rt = true ↔ recordKey r = (f, t, d, rt) := by
  simp [matchesKey, recordKey, Prod.ext_iff, and_assoc]

theorem hasStored_iff {store : Store} {f t : String} {d : Nat} {rt : String} :
    hasStored store f t d rt = true ↔ ∃ e ∈ store, recordKey e = (f, t, d, rt) := by
  simp only [hasStored, List.any_eq_true, matchesKey_iff]

theorem eq_of_keyNodup {store : Store} (hnd : keyNodup store) {r r' : Record}
    (hr : r ∈ store) (hr' : r' ∈ store) (hk : recordKey r = recordKey r') :
    r = r' :=
  List.inj_on_of_nodup_map hnd hr hr' hk

theorem findRecord_mem {store : Store} {f t : String} {d : Nat} {rt : String}
    {rec : Record} (h : findRecord store f t d rt = some rec) :
    rec ∈ store ∧ recordKey rec = (f, t, d, rt) := by
  unfold findRecord at h
  have hp := List.find?_some h
  exact ⟨List.mem_of_find?_eq_some h, matchesKey_iff.mp hp⟩

theorem findRecord_eq_some {store : Store} (hnd : keyNodup store)
    {rec : Record} (h : rec ∈ store) {f t : String} {d : Nat} {rt : String}
    (hkey : recordKey rec = (f, t, d, rt)) :
    findRecord store f t d rt = some rec :=
  find?_eq_some_of_unique h (matchesKey_iff.mpr hkey)
    (fun w hw hpw =>
      eq_of_keyNodup hnd hw h ((matchesKey_iff.mp hpw).trans hkey.symm))

theorem findRecord_eq_none {store : Store} {f t : String} {d : Nat}
    {rt : String} (h : ∀ e ∈ store, recordKey e ≠ (f, t, d, rt)) :
    findRecord store f t d rt = none := by
  rw [findRecord, List.find?_eq_none]
  intro x hx hpx
  exact h x hx (matchesKey_iff.mp hpx)

theorem findRecord_insertRate_self (store : Store) (f t : String) (rate : ℚ)
    (rt : String) (d : Nat) (src fa : String) :
    findRecord (insertRate store f t rate rt d src fa) f t d rt =
      some (Record.mk f t rate rt d src fa) := by
  unfold findRecord insertRate
  rw [List.find?_append]
  have h1 : (store.filter fun r => !matchesKey r f t d rt).find?
      (fun r => matchesKey r f t d rt) = none := by
    rw [List.find?_eq_none]
    intro x hx
    have := (List.mem_filter.mp hx).2
    simp only [Bool.not_eq_true'] at this
    simp [this]
  rw [h1]
  have h2 : matchesKey (Record.mk f t rate rt d src fa) f t d rt = true := by
    simp [matchesKey]
  simp [insertRate, h2]

theorem findRecord_insertRate_other (store : Store) (f t : String) (rate : ℚ)
    (rt : String) (d : Nat) (src fa : String) {f' t' : String} {d' : Nat}
    {rt' : String} (hne : (f', t', d', rt') ≠ (f, t, d, rt)) :
    findRecord (insertRate store f t rate rt d src fa) f' t' d' rt' =
      findRecord store f' t' d' rt' := by
  unfold findRecord insertRate
  rw [List.find?_append]
  have hnew : (([Record.mk f t rate rt d src fa]).find?
      (fun r => matchesKey r f' t' d' rt')) = none := by
    rw [List.find?_eq_none]
    intro x hx hm
    rw [List.mem_singleton] at hx
    subst hx
    have := matchesKey_iff.mp hm
    simp only [recordKey] at this
    exact hne this.symm
  rw [hnew]
  have hfil : (store.filter fun r => !matchesKey r f t d rt).find?
      (fun r => matchesKey r f' t' d' rt') =
      store.find? (fun r => matchesKey r f' t' d' rt') := by
    apply find?_filter_eq
    intro x hx
    have hkx := matchesKey_iff.mp hx
    simp only [Bool.not_eq_true']
    cases hm : matchesKey x f t d rt with
    | false => rfl
    | true => exact absurd (hkx.symm.trans (matchesKey_iff.mp hm)) hne
  rw [hfil]
  cases store.find? (fun r => matchesKey r f' t' d' rt') <;> rfl

end StoreLemmas

section ViewLemmas

theorem mem_bidirectionalView {store : Store} {w : ViewEntry} :
    w ∈ bidirectionalView store ↔
      (∃ r ∈ store, 0 < r.rate ∧ w = directEntryOf r) ∨
      (∃ r ∈ store, 0 < r.rate ∧
        hasStored store r.to_currency r.from_currency r.date r.rate_type = false ∧
        w = inverseEntryOf r) := by
  simp only [bidirectionalView, List.mem_append, List.mem_map, List.mem_filter,
    Bool.and_eq_true, decide_eq_true_eq, Bool.not_eq_true']
  constructor
  · rintro (⟨r, ⟨hr, hpos⟩, rfl⟩ | ⟨r, ⟨hr, hpos, hns⟩, rfl⟩)
    · exact Or.inl ⟨r, hr, hpos, rfl⟩
    · exact Or.inr ⟨r, hr, hpos, hns, rfl⟩
  · rintro (⟨r, hr, hpos, rfl⟩ | ⟨r, hr, hpos, hns, rfl⟩)
    · exact Or.inl ⟨r, ⟨hr, hpos⟩, rfl⟩
    · exact Or.inr ⟨r, ⟨hr, hpos, hns⟩, rfl⟩

theorem view_rate_pos {store : Store} {w : ViewEntry}
    (h : w ∈ bidirectionalView store) : 0 < w.rate := by
  rcases mem_bidirectionalView.mp h with ⟨r, _, hpos, rfl⟩ | ⟨r, _, hpos, _, rfl⟩
  · exact hpos
  · exact one_div_pos.mpr hpos

theorem lookupRT_nil (cur c : String) : lookupRT [] cur c = none := rfl

theorem lookupRT_groupStep (acc : RatesMap) (v : ViewEntry) (cur c : String) :
    lookupRT (groupStep acc v) cur c =
      if v.to_currency = cur ∧ v.rate_type = c then some v.rate
      else lookupRT acc cur c := by
  unfold groupStep lookupRT
  by_cases h1 : cur = v.to_currency
  · subst h1
    rw [lookupStr_setEntry_self]
    rw [Option.some_bind]
    by_cases h2 : c = v.rate_type
    · subst h2
      rw [lookupStr_setEntry_self]
      simp
    · rw [lookupStr_setEntry_ne _ _ h2]
      have hcond : ¬(v.to_currency = v.to_currency ∧ v.rate_type = c) := by
        intro hc
        exact h2 hc.2.symm
      rw [if_neg hcond]
      cases hacc : lookupStr acc v.to_currency <;> simp [hacc, lookupStr]
  · rw [lookupStr_setEntry_ne _ _ h1]
    have hcond : ¬(v.to_currency = cur ∧ v.rate_type = c) := by
      intro hc
      exact h1 hc.1.symm
    rw [if_neg hcond]

theorem lookupRT_groupFold (rows : List ViewEntry) (acc : RatesMap)
    (cur c : String) :
    lookupRT (rows.foldl groupStep acc) cur c =
      match rows.reverse.find?
          (fun v => v.to_currency == cur && v.rate_type == c) with
      | some w => some w.rate
      | none => lookupRT acc cur c := by
  induction rows generalizing acc with
  | nil => rfl
  | cons v rows ih =>
      rw [List.foldl_cons, ih, List.reverse_cons, List.find?_append]
      by_cases hm : (v.to_currency == cur && v.rate_type == c) = true
      · have hm' : v.to_currency = cur ∧ v.rate_type = c := by simpa using hm
        cases hf : rows.reverse.find?
            (fun v => v.to_currency == cur && v.rate_type == c) with
        | none =>
            simp only [Option.none_or]
            rw [List.find?_singleton, if_pos hm, lookupRT_groupStep, if_pos hm']
        | some w => simp
      · have hm' : ¬(v.to_currency = cur ∧ v.rate_type = c) := by
          intro hc
          exact hm (by simp [hc.1, hc.2])
        cases hf : rows.reverse.find?
            (fun v => v.to_currency == cur && v.rate_type == c) with
        | none =>
            simp only [Option.none_or]
            rw [List.find?_singleton, if_neg hm, lookupRT_groupStep, if_neg hm']
        | some w => simp

theorem lookupRT_groupRows (rows : List ViewEntry) (cur c : String) :
    lookupRT (groupRows rows) cur c =
      (rows.reverse.find?
        (fun v => v.to_currency == cur && v.rate_type == c)).map ViewEntry.rate := by
  unfold groupRows
  rw [lookupRT_groupFold]
  cases rows.reverse.find? (fun v => v.to_currency == cur && v.rate_type == c) <;> rfl

theorem groupFold_inner_nodup (rows : List ViewEntry) (acc : RatesMap)
    (hacc : ∀ cur m, lookupStr acc cur = some m → (m.map Prod.fst).Nodup) :
    ∀ cur m, lookupStr (rows.foldl groupStep acc) cur = some m →
      (m.map Prod.fst).Nodup := by
  induction rows generalizing acc with
  | nil => exact hacc
  | cons v rows ih =>
      rw [List.foldl_cons]
      apply ih
      intro cur m hm
      unfold groupStep at hm
      rw [lookupStr_setEntry] at hm
      by_cases hc : cur = v.to_currency
      · rw [if_pos hc] at hm
        have hinner : (((lookupStr acc v.to_currency).getD []).map
            Prod.fst).Nodup := by
          cases hacc2 : lookupStr acc v.to_currency with
          | none => simp
          | some m0 => simpa using hacc _ _ hacc2
        rw [← Option.some_inj.mp hm]
        exact keys_setEntry_nodup hinner _ _
      · rw [if_neg hc] at hm
        exact hacc cur m hm

theorem getAllRatesForBase_inner_nodup {store : Store} {base : String}
    {d : Nat} {rt? : Option String} {cur : String} {m : List (String × ℚ)}
    (h : lookupStr (getAllRatesForBase store base d rt?) cur = some m) :
    (m.map Prod.fst).Nodup := by
  refine groupFold_inner_nodup _ [] ?_ cur m h
  intro cur' m' hm'
  simp [lookupStr] at hm'

end ViewLemmas

section PriorityLemmas

theorem one_le_ratePriority (rt : String) : 1 ≤ ratePriority rt := by
  unfold ratePriority
  repeat' split
  all_goals omega

theorem ratePriority_eq_one_iff (rt : String) :
    ratePriority rt = 1 ↔ rt = "official" := by
  by_cases h : rt = "official"
  · simp [h, ratePriority]
  · have hb : (rt == "official") = false := by simp [h]
    constructor
    · intro h1
      exfalso
      unfold ratePriority at h1
      rw [hb, if_neg Bool.false_ne_true] at h1
      repeat' split at h1
      all_goals omega
    · intro h2
      exact absurd h2 h

theorem pickStep_isSome (acc : Option Record) (r : Record) :
    (pickStep acc r).isSome := by
  cases acc with
  | none => rfl
  | some b =>
      simp only [pickStep]
      split <;> rfl

theorem pickFold_isSome (rows : List Record) (acc : Option Record)
    (h : acc.isSome ∨ rows ≠ []) : (rows.foldl pickStep acc).isSome := by
  induction rows generalizing acc with
  | nil =>
      rcases h with h | h
      · exact h
      · exact absurd rfl h
  | cons r rows ih =>
      rw [List.foldl_cons]
      exact ih _ (Or.inl (pickStep_isSome acc r))

theorem pickFold_mem {rows : List Record} {acc : Option Record} {b : Record}
    (h : rows.foldl pickStep acc = some b) : acc = some b ∨ b ∈ rows := by
  induction rows generalizing acc with
  | nil => exact Or.inl h
  | cons r rows ih =>
      rw [List.foldl_cons] at h
      rcases ih h with hstep | hmem
      · cases acc with
        | none =>
            simp only [pickStep] at hstep
            exact Or.inr (by rw [← Option.some_inj.mp hstep]; exact List.mem_cons_self r rows)
        | some a =>
            simp only [pickStep] at hstep
            split at hstep
            · exact Or.inr (by rw [← Option.some_inj.mp hstep]; exact List.mem_cons_self r rows)
            · exact Or.inl hstep
      · exact Or.inr (List.mem_cons_of_mem r hmem)

theorem pickFold_le {rows : List Record} {acc : Option Record} {b : Record}
    (h : rows.foldl pickStep acc = some b) :
    (∀ a, acc = some a → ratePriority b.rate_type ≤ ratePriority a.rate_type) ∧
    (∀ r ∈ rows, ratePriority b.rate_type ≤ ratePriority r.rate_type) := by
  induction rows generalizing acc with
  | nil =>
      refine ⟨fun a ha => ?_, fun r hr => absurd hr (List.not_mem_nil r)⟩
      rw [List.foldl_nil] at h
      rw [h] at ha
      rw [Option.some_inj.mp ha]
  | cons r rows ih =>
      rw [List.foldl_cons] at h
      obtain ⟨ihacc, ihrows⟩ := ih h
      have key : ∀ a1, pickStep acc r = some a1 →
          ratePriority a1.rate_type ≤ ratePriority r.rate_type ∧
          (∀ a0, acc = some a0 →
            ratePriority a1.rate_type ≤ ratePriority a0.rate_type) := by
        intro a1 ha1
        cases acc with
        | none =>
            simp only [pickStep] at ha1
            have hr1 : r = a1 := Option.some_inj.mp ha1
            subst hr1
            exact ⟨le_refl _, fun a0 h0 => by simp at h0⟩
        | some a0 =>
            simp only [pickStep] at ha1
            by_cases hlt : ratePriority r.rate_type < ratePriority a0.rate_type
            · rw [if_pos hlt] at ha1
              have hr1 : r = a1 := Option.some_inj.mp ha1
              subst hr1
              refine ⟨le_refl _, fun a2 h2 => ?_⟩
              have : a0 = a2 := Option.some_inj.mp h2
              subst this
              omega
            · rw [if_neg hlt] at ha1
              have hr1 : a0 = a1 := Option.some_inj.mp ha1
              subst hr1
              refine ⟨by omega, fun a2 h2 => ?_⟩
              have : a0 = a2 := Option.some_inj.mp h2
              subst this
              exact le_refl _
      refine ⟨fun a ha => ?_, fun r' hr' => ?_⟩
      · cases hps : pickStep acc r with
        | none =>
            have := pickStep_isSome acc r
            rw [hps] at this
            simp at this
        | some a1 => exact le_trans (ihacc a1 hps) ((key a1 hps).2 a ha)
      · rcases List.mem_cons.mp hr' with rfl | hmem
        · cases hps : pickStep acc r' with
          | none =>
              have := pickStep_isSome acc r'
              rw [hps] at this
              simp at this
          | some a1 => exact le_trans (ihacc a1 hps) (key a1 hps).1
        · exact ihrows r' hmem

end PriorityLemmas

section ViewHelpers

theorem mem_viewRowsForBase_sub {store : Store} {base : String} {d : Nat}
    {rt? : Option String} {w : ViewEntry}
    (h : w ∈ viewRowsForBase store base d rt?) : w ∈ bidirectionalView store := by
  cases rt? with
  | none => exact (List.mem_filter.mp h).1
  | some rt => exact (List.mem_filter.mp h).1

theorem resolveRate_eq (store : Store) (f t : String) (d : Nat) (c : String) :
    resolveRate store f t d c =
      lookupRT (getAllRatesForBase store f d (some c)) t c := rfl

end ViewHelpers

/-- C9: every rate value readable out of `get_all_rates_for_base` is
strictly positive, for an arbitrary store: both branches of the
bidirectional view it reads filter out non-positive rates, so even a
non-positive stored record can neither appear directly nor contribute an
inverse to the aggregate result. -/
theorem getAllRatesForBase_rate_pos (store : Store) (base : String) (d : Nat)
    (rt? : Option String) (cur c : String) (m : List (String × ℚ)) (q : ℚ)
    (h1 : lookupStr (getAllRatesForBase store base d rt?) cur = some m)
    (h2 : lookupStr m c = some q) : 0 < q := by
  have hrt : lookupRT (getAllRatesForBase store base d rt?) cur c = some q := by
    rw [lookupRT, h1, Option.some_bind, h2]
  rw [getAllRatesForBase, lookupRT_groupRows] at hrt
  cases hf : (viewRowsForBase store base d rt?).reverse.find?
      (fun v => v.to_currency == cur && v.rate_type == c) with
  | none => rw [hf] at hrt; simp at hrt
  | some w =>
      rw [hf] at hrt
      have hw : w ∈ viewRowsForBase store base d rt? :=
        List.mem_reverse.mp (List.mem_of_find?_eq_some hf)
      have hq : w.rate = q := by simpa using hrt
      rw [← hq]
      exact view_rate_pos (mem_viewRowsForBase_sub hw)

/-- Witness for C9 at a concrete store: the inverse of a stored `USD→ARS = 2`
is read back as the positive `1/2`. -/
theorem getAllRatesForBase_rate_pos_witness :
    lookupStr (getAllRatesForBase [Record.mk "USD" "ARS" 2 "official" 100 "t" "ft"]
        "ARS" 100 none) "USD" = some [("official", (1 : ℚ)/2)] ∧
    lookupStr [("official", (1 : ℚ)/2)] "official" = some ((1 : ℚ)/2) ∧
    0 < ((1 : ℚ)/2) :=
  ⟨rfl, rfl, getAllRatesForBase_rate_pos
    [Record.mk "USD" "ARS" 2 "official" 100 "t" "ft"] "ARS" 100 none
    "USD" "official" [("official", (1 : ℚ)/2)] ((1 : ℚ)/2) rfl rfl⟩

/-- C4: a no-classification `get_rate` query selects among the stored rows
for the pair and date by the fixed priority official 1 > blue 2 > mep 3 >
ccl 4, any unranked classification after all ranked ones (5); in particular
with both an `official` and a `blue` row stored for the pair and date the
query returns the official value, while an explicit `blue` query returns
the blue value. -/
theorem getRate_default_priority (store : Store) (f t : String) (d : Nat)
    (hnd : keyNodup store) :
    (∀ q, getRate store f t d none = some q →
      ∃ rec ∈ store, rec.from_currency = f ∧ rec.to_currency = t ∧
        rec.date = d ∧ rec.rate = q ∧
        ∀ rec2 ∈ store, rec2.from_currency = f → rec2.to_currency = t →
          rec2.date = d →
          ratePriority rec.rate_type ≤ ratePriority rec2.rate_type)
    ∧ ((getRate store f t d none).isSome ↔
        ∃ rec ∈ store, rec.from_currency = f ∧ rec.to_currency = t ∧ rec.date = d)
    ∧ (∀ rec ∈ store, recordKey rec = (f, t, d, "official") →
        getRate store f t d none = some rec.rate)
    ∧ (∀ rec ∈ store, recordKey rec = (f, t, d, "blue") →
        getRate store f t d (some "blue") = some rec.rate) := by
  have hrows : ∀ r : Record,
      r ∈ store.filter (fun r => r.from_currency == f && r.to_currency == t &&
        r.date == d) ↔
      (r ∈ store ∧ (r.from_currency = f ∧ r.to_currency = t ∧ r.date = d)) := by
    intro r
    rw [List.mem_filter]
    simp [and_assoc]
  have part1 : ∀ q, getRate store f t d none = some q →
      ∃ rec ∈ store, rec.from_currency = f ∧ rec.to_currency = t ∧
        rec.date = d ∧ rec.rate = q ∧
        ∀ rec2 ∈ store, rec2.from_currency = f → rec2.to_currency = t →
          rec2.date = d →
          ratePriority rec.rate_type ≤ ratePriority rec2.rate_type := by
    intro q hq
    simp only [getRate] at hq
    cases hpb : pickByPriority (store.filter
        (fun r => r.from_currency == f && r.to_currency == t && r.date == d)) with
    | none => rw [hpb] at hq; simp at hq
    | some b =>
        rw [hpb] at hq
        have hbq : b.rate = q := by simpa using hq
        have hbmem : b ∈ store.filter (fun r => r.from_currency == f &&
            r.to_currency == t && r.date == d) := by
          rcases pickFold_mem hpb with hc | hc
          · exact absurd hc (by simp)
          · exact hc
        obtain ⟨hbs, hbf, hbt, hbd⟩ := (hrows b).mp hbmem
        refine ⟨b, hbs, hbf, hbt, hbd, hbq, ?_⟩
        intro rec2 h2s h2f h2t h2d
        exact (pickFold_le hpb).2 rec2 ((hrows rec2).mpr ⟨h2s, h2f, h2t, h2d⟩)
  have part2 : (getRate store f t d none).isSome ↔
      ∃ rec ∈ store, rec.from_currency = f ∧ rec.to_currency = t ∧ rec.date = d := by
    constructor
    · intro hs
      obtain ⟨q, hq⟩ := Option.isSome_iff_exists.mp hs
      obtain ⟨rec, hm, hf2, ht2, hd2, _⟩ := part1 q hq
      exact ⟨rec, hm, hf2, ht2, hd2⟩
    · rintro ⟨rec, hm, hf2, ht2, hd2⟩
      have hmem : rec ∈ store.filter (fun r => r.from_currency == f &&
          r.to_currency == t && r.date == d) :=
        (hrows rec).mpr ⟨hm, hf2, ht2, hd2⟩
      have hne : store.filter (fun r => r.from_currency == f &&
          r.to_currency == t && r.date == d) ≠ [] :=
        List.ne_nil_of_mem hmem
      have hps := pickFold_isSome (store.filter (fun r => r.from_currency == f &&
          r.to_currency == t && r.date == d)) none (Or.inr hne)
      simp only [getRate, pickByPriority]
      cases hx : List.foldl pickStep none (store.filter
          (fun r => r.from_currency == f && r.to_currency == t && r.date == d)) with
      | none => rw [hx] at hps; simp at hps
      | some b => rfl
  refine ⟨part1, part2, ?_, ?_⟩
  · intro rec hm hkey
    have hkey2 : rec.from_currency = f ∧ rec.to_currency = t ∧ rec.date = d ∧
        rec.rate_type = "official" := by
      simpa [recordKey, Prod.ext_iff, and_assoc] using hkey
    have hs : (getRate store f t d none).isSome :=
      part2.mpr ⟨rec, hm, hkey2.1, hkey2.2.1, hkey2.2.2.1⟩
    obtain ⟨q, hq⟩ := Option.isSome_iff_exists.mp hs
    obtain ⟨b, hbs, hbf, hbt, hbd, hbq, hmin⟩ := part1 q hq
    have hble : ratePriority b.rate_type ≤ 1 := by
      have := hmin rec hm hkey2.1 hkey2.2.1 hkey2.2.2.1
      rwa [hkey2.2.2.2, (by rfl : ratePriority "official" = 1)] at this
    have hb1 : ratePriority b.rate_type = 1 :=
      le_antisymm hble (one_le_ratePriority _)
    have hbo : b.rate_type = "official" := (ratePriority_eq_one_iff _).mp hb1
    have hbk : recordKey b = recordKey rec := by
      simp [recordKey, hbf, hbt, hbd, hbo, hkey2.1, hkey2.2.1, hkey2.2.2.1,
        hkey2.2.2.2]
    have : b = rec := eq_of_keyNodup hnd hbs hm hbk
    rw [hq, ← hbq, this]
  · intro rec hm hkey
    simp only [getRate]
    rw [findRecord_eq_some hnd hm hkey]
    rfl

/-- Witness for C4: with `official` and `blue` rows stored for the same
pair and date, the no-classification query returns the official value and
the explicit `blue` query the blue value. -/
theorem getRate_default_priority_witness :
    keyNodup [Record.mk "ARS" "USD" (67/100000) "official" 100 "test" "ft",
      Record.mk "ARS" "USD" (66/100000) "blue" 100 "dolarhoy" "ft"] ∧
    getRate [Record.mk "ARS" "USD" (67/100000) "official" 100 "test" "ft",
      Record.mk "ARS" "USD" (66/100000) "blue" 100 "dolarhoy" "ft"]
      "ARS" "USD" 100 none = some (67/100000) ∧
    getRate [Record.mk "ARS" "USD" (67/100000) "official" 100 "test" "ft",
      Record.mk "ARS" "USD" (66/100000) "blue" 100 "dolarhoy" "ft"]
      "ARS" "USD" 100 (some "blue") = some (66/100000) := by
  refine ⟨by decide, ?_, ?_⟩
  · exact (getRate_default_priority _ "ARS" "USD" 100 (by decide)).2.2.1
      (Record.mk "ARS" "USD" (67/100000) "official" 100 "test" "ft")
      (List.mem_cons_self _ _) rfl
  · exact (getRate_default_priority _ "ARS" "USD" 100 (by decide)).2.2.2
      (Record.mk "ARS" "USD" (66/100000) "blue" 100 "dolarhoy" "ft")
      (List.mem_cons_of_mem _ (List.mem_cons_self _ _)) rfl

/-- C3 (amended): `get_rate` with an explicit classification is an exact
lookup against the stored table only, not the bidirectional view: it
returns the stored direct rate for that exact key when present and absent
otherwise; it never derives `1/rate` from a reversed-key record. -/
theorem getRate_explicit_direct_only (store : Store) (f t : String) (d : Nat)
    (c : String) (hnd : keyNodup store) :
    (∀ q, getRate store f t d (some c) = some q ↔
      ∃ rec ∈ store, recordKey rec = (f, t, d, c) ∧ rec.rate = q)
    ∧ ((∀ e ∈ store, recordKey e ≠ (f, t, d, c)) →
        getRate store f t d (some c) = none) := by
  constructor
  · intro q
    constructor
    · intro hq
      simp only [getRate] at hq
      cases hf : findRecord store f t d c with
      | none => rw [hf] at hq; simp at hq
      | some rec =>
          rw [hf] at hq
          obtain ⟨hm, hk⟩ := findRecord_mem hf
          exact ⟨rec, hm, hk, by simpa using hq⟩
    · rintro ⟨rec, hm, hk, rfl⟩
      simp only [getRate]
      rw [findRecord_eq_some hnd hm hk]
      rfl
  · intro h
    simp only [getRate]
    rw [findRecord_eq_none h]
    rfl

/-- Witness for the amended C3: a stored direct rate is returned exactly. -/
theorem getRate_explicit_direct_only_witness :
    keyNodup [Record.mk "USD" "EUR" (85/100) "official" 100 "test" "ft"] ∧
    getRate [Record.mk "USD" "EUR" (85/100) "official" 100 "test" "ft"]
      "USD" "EUR" 100 (some "official") = some (85/100) :=
  ⟨by decide,
    ((getRate_explicit_direct_only
      [Record.mk "USD" "EUR" (85/100) "official" 100 "test" "ft"]
      "USD" "EUR" 100 "official" (by decide)).1 (85/100)).mpr
      ⟨Record.mk "USD" "EUR" (85/100) "official" 100 "test" "ft",
        List.mem_cons_self _ _, rfl, rfl⟩⟩

/-- Counterexample to C3 as stated: with only `ARS→USD = 2` stored,
`get_rate("USD","ARS",d,"official")` returns nothing, although the
BidirectionalView rule resolves the derived inverse `1/2` for that key. -/
theorem getRate_explicit_no_inverse_counterexample :
    getRate [Record.mk "ARS" "USD" 2 "official" 100 "test" "ft"]
      "USD" "ARS" 100 (some "official") = none ∧
    resolveRate [Record.mk "ARS" "USD" 2 "official" 100 "test" "ft"]
      "USD" "ARS" 100 "official" = some (1/2) ∧
    (some ((1 : ℚ)/2) ≠ (none : Option ℚ)) :=
  ⟨rfl, rfl, by simp⟩

theorem viewRow_resolution_cases {store : Store} (hnd : keyNodup store)
    {r s : Record} (hr : r ∈ store) (hs : s ∈ store)
    (hskey : recordKey s = (r.to_currency, r.from_currency, r.date, r.rate_type))
    {w : ViewEntry}
    (hw : w ∈ viewRowsForBase store r.to_currency r.date (some r.rate_type))
    (hpw : (w.to_currency == r.from_currency && w.rate_type == r.rate_type) = true) :
    ∃ r2 ∈ store, recordKey r2 = recordKey s ∧ 0 < r2.rate ∧
      w = directEntryOf r2 := by
  have hsk : s.from_currency = r.to_currency ∧ s.to_currency = r.from_currency ∧
      s.date = r.date ∧ s.rate_type = r.rate_type := by
    simpa [recordKey, Prod.ext_iff, and_assoc] using hskey
  obtain ⟨hwv, hwp⟩ := List.mem_filter.mp hw
  have hwp2 : w.from_currency = r.to_currency ∧ w.date = r.date ∧
      w.rate_type = r.rate_type := by
    simpa [and_assoc] using hwp
  have hpw2 : w.to_currency = r.from_currency ∧ w.rate_type = r.rate_type := by
    simpa using hpw
  rcases mem_bidirectionalView.mp hwv with ⟨r2, hr2, hp2, rfl⟩ |
      ⟨r2, hr2, hp2, hns, rfl⟩
  · refine ⟨r2, hr2, ?_, hp2, rfl⟩
    rw [hskey]
    simp only [directEntryOf] at hwp2 hpw2
    simp [recordKey, hwp2.1, hwp2.2.1, hwp2.2.2, hpw2.1]
  · exfalso
    simp only [inverseEntryOf] at hwp2 hpw2
    have hk2 : recordKey r2 = recordKey r := by
      simp [recordKey, hwp2.1, hwp2.2.1, hwp2.2.2, hpw2.1]
    have : r2 = r := eq_of_keyNodup hnd hr2 hr hk2
    subst this
    rw [hasStored_iff.mpr ⟨s, hs, hskey⟩] at hns
    exact Bool.noConfusion hns

/-- C1 (amended): for a stored record `(A,B,date,cls)` with rate `r > 0`,
the view yields the direct entry `(A,B,r)`, and yields the inverse entry
`(B,A,1/r)` iff no record at all is stored under the reversed key
`(B,A,date,cls)`; when a reversed record with a positive rate is stored,
the resolution of `B→A` is that stored rate, never `1/r`; when the stored
reversed record has a non-positive rate, `B→A` resolves to nothing — the
inverse is still suppressed, but the reversed record itself is filtered
out of the view. -/
theorem bidirectionalView_direct_precedence (store : Store)
    (hnd : keyNodup store) (r : Record) (hr : r ∈ store) (hpos : 0 < r.rate) :
    directEntryOf r ∈ bidirectionalView store
    ∧ (inverseEntryOf r ∈ bidirectionalView store ↔
        ¬∃ e ∈ store,
          recordKey e = (r.to_currency, r.from_currency, r.date, r.rate_type))
    ∧ (∀ s ∈ store,
        recordKey s = (r.to_currency, r.from_currency, r.date, r.rate_type) →
        0 < s.rate →
        resolveRate store r.to_currency r.from_currency r.date r.rate_type =
          some s.rate)
    ∧ (∀ s ∈ store,
        recordKey s = (r.to_currency, r.from_currency, r.date, r.rate_type) →
        s.rate ≤ 0 →
        resolveRate store r.to_currency r.from_currency r.date r.rate_type =
          none) := by
  refine ⟨mem_bidirectionalView.mpr (Or.inl ⟨r, hr, hpos, rfl⟩), ?_, ?_, ?_⟩
  · constructor
    · intro hmem hex
      rcases mem_bidirectionalView.mp hmem with ⟨r2, hr2, hp2, heq⟩ |
          ⟨r2, hr2, hp2, hns, heq⟩
      · have := congrArg ViewEntry.rate_source heq
        simp [directEntryOf, inverseEntryOf] at this
      · have h1 := congrArg ViewEntry.from_currency heq
        have h2 := congrArg ViewEntry.to_currency heq
        have h3 := congrArg ViewEntry.date heq
        have h4 := congrArg ViewEntry.rate_type heq
        simp only [inverseEntryOf] at h1 h2 h3 h4
        have hk2 : recordKey r2 = recordKey r := by
          simp [recordKey, ← h1, ← h2, ← h3, ← h4]
        have : r2 = r := eq_of_keyNodup hnd hr2 hr hk2
        subst this
        obtain ⟨e, he, hek⟩ := hex
        rw [hasStored_iff.mpr ⟨e, he, hek⟩] at hns
        exact Bool.noConfusion hns
    · intro hnex
      have hhs : hasStored store r.to_currency r.from_currency r.date
          r.rate_type = false := by
        cases hhs : hasStored store r.to_currency r.from_currency r.date
            r.rate_type with
        | true => exact absurd (hasStored_iff.mp hhs) hnex
        | false => rfl
      exact mem_bidirectionalView.mpr (Or.inr ⟨r, hr, hpos, hhs, rfl⟩)
  · intro s hs hskey hspos
    have hsk : s.from_currency = r.to_currency ∧ s.to_currency = r.from_currency ∧
        s.date = r.date ∧ s.rate_type = r.rate_type := by
      simpa [recordKey, Prod.ext_iff, and_assoc] using hskey
    rw [resolveRate_eq, getAllRatesForBase, lookupRT_groupRows]
    have hfind : (viewRowsForBase store r.to_currency r.date
        (some r.rate_type)).reverse.find?
        (fun v => v.to_currency == r.from_currency &&
          v.rate_type == r.rate_type) = some (directEntryOf s) := by
      apply find?_eq_some_of_unique
      · rw [List.mem_reverse]
        apply List.mem_filter.mpr
        refine ⟨mem_bidirectionalView.mpr (Or.inl ⟨s, hs, hspos, rfl⟩), ?_⟩
        simp [directEntryOf, hsk.1, hsk.2.2.1, hsk.2.2.2]
      · simp [directEntryOf, hsk.2.1, hsk.2.2.2]
      · intro w hw hpw
        obtain ⟨r2, hr2, hk2, hp2, rfl⟩ := viewRow_resolution_cases hnd hr hs
          hskey (List.mem_reverse.mp hw) hpw
        rw [eq_of_keyNodup hnd hr2 hs hk2]
    rw [hfind]
    rfl
  · intro s hs hskey hsneg
    rw [resolveRate_eq, getAllRatesForBase, lookupRT_groupRows]
    have hfind : (viewRowsForBase store r.to_currency r.date
        (some r.rate_type)).reverse.find?
        (fun v => v.to_currency == r.from_currency &&
          v.rate_type == r.rate_type) = none := by
      rw [List.find?_eq_none]
      intro w hw hpw
      obtain ⟨r2, hr2, hk2, hp2, rfl⟩ := viewRow_resolution_cases hnd hr hs
        hskey (List.mem_reverse.mp hw) hpw
      have : r2 = s := eq_of_keyNodup hnd hr2 hs hk2
      subst this
      exact absurd hp2 (not_lt.mpr hsneg)
    rw [hfind]
    rfl

/-- Witness for the amended C1: with `ARS→USD = 2` and `USD→ARS = 3` both
stored, `USD→ARS` resolves to the stored `3`, not to `1/2`. -/
theorem bidirectionalView_direct_precedence_witness :
    keyNodup [Record.mk "ARS" "USD" 2 "official" 100 "t" "ft",
      Record.mk "USD" "ARS" 3 "official" 100 "t" "ft"] ∧
    (0 : ℚ) < 2 ∧
    resolveRate [Record.mk "ARS" "USD" 2 "official" 100 "t" "ft",
      Record.mk "USD" "ARS" 3 "official" 100 "t" "ft"]
      "USD" "ARS" 100 "official" = some 3 :=
  ⟨by decide, by norm_num,
    (bidirectionalView_direct_precedence
      [Record.mk "ARS" "USD" 2 "official" 100 "t" "ft",
        Record.mk "USD" "ARS" 3 "official" 100 "t" "ft"]
      (by decide)
      (Record.mk "ARS" "USD" 2 "official" 100 "t" "ft")
      (List.mem_cons_self _ _) (by norm_num)).2.2.1
      (Record.mk "USD" "ARS" 3 "official" 100 "t" "ft")
      (List.mem_cons_of_mem _ (List.mem_cons_self _ _)) rfl (by norm_num)⟩

/-- Counterexample to C1 as stated: with `ARS→USD = 2` (positive) and a
reversed record `USD→ARS = -1` both stored, the resolution of `USD→ARS`
is absent — not the stored `-1` the claim's final clause asserts. -/
theorem bidirectionalView_direct_precedence_counterexample :
    (Record.mk "ARS" "USD" 2 "official" 100 "test" "ft") ∈
      [Record.mk "ARS" "USD" 2 "official" 100 "test" "ft",
        Record.mk "USD" "ARS" (-1) "official" 100 "test" "ft"] ∧
    (Record.mk "USD" "ARS" (-1) "official" 100 "test" "ft") ∈
      [Record.mk "ARS" "USD" 2 "official" 100 "test" "ft",
        Record.mk "USD" "ARS" (-1) "official" 100 "test" "ft"] ∧
    (0 : ℚ) < 2 ∧
    (Record.mk "USD" "ARS" (-1) "official" 100 "test" "ft").rate = -1 ∧
    resolveRate [Record.mk "ARS" "USD" 2 "official" 100 "test" "ft",
      Record.mk "USD" "ARS" (-1) "official" 100 "test" "ft"]
      "USD" "ARS" 100 "official" = none ∧
    resolveRate [Record.mk "ARS" "USD" 2 "official" 100 "test" "ft",
      Record.mk "USD" "ARS" (-1) "official" 100 "test" "ft"]
      "USD" "ARS" 100 "official" ≠ some (-1) := by
  refine ⟨List.mem_cons_self _ _,
    List.mem_cons_of_mem _ (List.mem_cons_self _ _), by norm_num, rfl, rfl, ?_⟩
  intro h
  have hn : resolveRate [Record.mk "ARS" "USD" 2 "official" 100 "test" "ft",
      Record.mk "USD" "ARS" (-1) "official" 100 "test" "ft"]
      "USD" "ARS" 100 "official" = none := rfl
  rw [hn] at h
  exact Option.noConfusion h

section ServiceLemmas

theorem lookupStr_nil {α : Type} (k : String) :
    lookupStr ([] : List (String × α)) k = none := rfl

theorem lookupStr_cons {α : Type} (p : String × α) (m : List (String × α))
    (k : String) :
    lookupStr (p :: m) k =
      if (p.1 == k) = true then some p.2 else lookupStr m k := by
  unfold lookupStr
  by_cases h : (p.1 == k) = true
  · rw [List.find?_cons_of_pos (p := fun q : String × α => q.1 == k) m h,
      if_pos h]
    rfl
  · rw [List.find?_cons_of_neg (p := fun q : String × α => q.1 == k) m h,
      if_neg h]

theorem tryFetch_eq_of_fail {f : Fetcher}
    (hf : ∀ s, ∃ e, f s = Except.error e) (st : Store) : tryFetch f st = st := by
  obtain ⟨e, he⟩ := hf st
  rw [tryFetch, he]

theorem failFetch_fails : ∀ s, ∃ e, failFetch s = Except.error e :=
  fun _ => ⟨"unavailable", rfl⟩

theorem usdLegAfterRetry_fail {oxr : Fetcher}
    (hf : ∀ s, ∃ e, oxr s = Except.error e) (store : Store) (d : Nat)
    (rt? : Option String) :
    usdLegAfterRetry oxr store d rt? = getAllRatesForBase store "USD" d rt? := by
  simp only [usdLegAfterRetry, tryFetch_eq_of_fail hf, ite_self]

theorem storeAfterProviderChecks_fail {oxr scraper : Fetcher}
    (hf : ∀ s, ∃ e, oxr s = Except.error e)
    (hg : ∀ s, ∃ e, scraper s = Except.error e) (store : Store) (base : String)
    (symbols : Option (List String)) (d : Nat) :
    storeAfterProviderChecks oxr scraper store base symbols d = store := by
  simp only [storeAfterProviderChecks, tryFetch_eq_of_fail hf,
    tryFetch_eq_of_fail hg, ite_self]

theorem interpolateViaUsd_fail {oxr : Fetcher}
    (hf : ∀ s, ∃ e, oxr s = Except.error e) (store : Store) (base : String)
    (targets : List String) (d : Nat) (rt? : Option String) :
    interpolateViaUsd oxr store base targets d rt? =
      interpolateViaUsd failFetch store base targets d rt? := by
  simp only [interpolateViaUsd, usdLegAfterRetry_fail hf,
    usdLegAfterRetry_fail failFetch_fails]

theorem projectFold_lookup {all : RatesMap} (ss : List String) (acc : RatesMap)
    (s : String) :
    lookupStr (ss.foldl (fun acc s2 =>
        match lookupStr all s2 with
        | some m => setEntry acc s2 m
        | none => acc) acc) s =
      if s ∈ ss ∧ (lookupStr all s).isSome then lookupStr all s
      else lookupStr acc s := by
  induction ss generalizing acc with
  | nil => simp
  | cons s2 ss ih =>
      rw [List.foldl_cons, ih]
      by_cases hs : s = s2
      · subst hs
        cases hall : lookupStr all s with
        | none => simp [hall]
        | some m =>
            by_cases hmem : s ∈ ss
            · simp [hall, hmem]
            · simp [hall, hmem, lookupStr_setEntry_self]
      · cases hall : lookupStr all s2 with
        | none => simp [hall, hs]
        | some m =>
            simp only [hall]
            rw [lookupStr_setEntry_ne _ _ hs]
            simp [hs]

theorem projectSymbols_lookup (all : RatesMap) (ss : List String) (s : String) :
    lookupStr (projectSymbols all ss) s =
      if s ∈ ss then lookupStr all s else none := by
  unfold projectSymbols
  rw [projectFold_lookup]
  by_cases hmem : s ∈ ss
  · by_cases hsome : (lookupStr all s).isSome
    · simp [hmem, hsome]
    · have hnone : lookupStr all s = none :=
        Option.not_isSome_iff_eq_none.mp hsome
      simp [hmem, hsome, hnone, lookupStr_nil]
  · simp [hmem, lookupStr_nil]

theorem projectFold_mem {all : RatesMap} {ss : List String} {acc : RatesMap}
    {p : String × List (String × ℚ)}
    (h : p ∈ ss.foldl (fun acc s2 =>
        match lookupStr all s2 with
        | some m => setEntry acc s2 m
        | none => acc) acc) :
    p ∈ acc ∨ p.1 ∈ ss := by
  induction ss generalizing acc with
  | nil => exact Or.inl h
  | cons s2 ss ih =>
      rw [List.foldl_cons] at h
      rcases ih h with hacc | hmem
      · cases hall : lookupStr all s2 with
        | none => rw [hall] at hacc; exact Or.inl hacc
        | some m =>
            rw [hall] at hacc
            rcases mem_setEntry hacc with rfl | hacc2
            · exact Or.inr (List.mem_cons_self _ _)
            · exact Or.inl hacc2
      · exact Or.inr (List.mem_cons_of_mem _ hmem)

theorem lookupStr_updateDict_of_none {m ext : RatesMap} {k : String}
    (h : ∀ p ∈ ext, p.1 ≠ k) :
    lookupStr (updateDict m ext) k = lookupStr m k := by
  unfold updateDict
  induction ext generalizing m with
  | nil => rfl
  | cons p ext ih =>
      rw [List.foldl_cons]
      rw [ih (fun q hq => h q (List.mem_cons_of_mem _ hq))]
      exact lookupStr_setEntry_ne _ _ (Ne.symm (h p (List.mem_cons_self _ _)))

theorem mem_updateDict {m ext : RatesMap} {q : String × List (String × ℚ)}
    (h : q ∈ updateDict m ext) : q ∈ m ∨ q.1 ∈ ext.map Prod.fst := by
  unfold updateDict at h
  induction ext generalizing m with
  | nil => exact Or.inl h
  | cons p ext ih =>
      rw [List.foldl_cons] at h
      rcases ih h with hm | hkeys
      · rcases mem_setEntry hm with rfl | hm2
        · exact Or.inr (by simp)
        · exact Or.inl hm2
      · exact Or.inr (by simp [hkeys])

theorem interpInnerFold_lookup (ut : List (String × ℚ))
    {busd : List (String × ℚ)} (hnd : (busd.map Prod.fst).Nodup)
    (acc : List (String × ℚ)) (c : String) :
    lookupStr (busd.foldl (fun acc p =>
        match lookupStr ut p.1 with
        | some u => setEntry acc p.1 (p.2 * u)
        | none => acc) acc) c =
      match lookupStr busd c, lookupStr ut c with
      | some b, some u => some (b * u)
      | _, _ => lookupStr acc c := by
  induction busd generalizing acc with
  | nil => rfl
  | cons p busd ih =>
      obtain ⟨k, b⟩ := p
      rw [List.map_cons, List.nodup_cons] at hnd
      have hk : k ∉ busd.map Prod.fst := hnd.1
      have hnd2 : (busd.map Prod.fst).Nodup := hnd.2
      rw [List.foldl_cons, ih hnd2, lookupStr_cons]
      by_cases hc : c = k
      · subst hc
        have hbnone : lookupStr busd c = none := by
          rw [lookupStr_eq_none_iff]
          intro q hq he
          exact hk (he ▸ List.mem_map_of_mem Prod.fst hq)
        rw [hbnone, if_pos (by simp)]
        cases hut : lookupStr ut c with
        | some u => simp [hut, lookupStr_setEntry_self]
        | none => simp [hut]
      · rw [if_neg (by simp [Ne.symm hc])]
        cases hut : lookupStr ut k with
        | some u =>
            simp only [hut]
            rw [lookupStr_setEntry_ne _ _ hc]
        | none => simp only [hut]

theorem interpInner_lookup (ut : List (String × ℚ))
    {busd : List (String × ℚ)} (hnd : (busd.map Prod.fst).Nodup) (c : String) :
    lookupStr (interpInner ut busd) c =
      match lookupStr busd c, lookupStr ut c with
      | some b, some u => some (b * u)
      | _, _ => none := by
  unfold interpInner
  rw [interpInnerFold_lookup ut hnd]
  cases lookupStr busd c <;> cases lookupStr ut c <;> rfl

theorem interpOuterFold_lookup (usdRates : RatesMap)
    (busd : List (String × ℚ)) (targets : List String) (acc : RatesMap)
    (t : String) :
    lookupStr (targets.foldl (fun rates target =>
        match lookupStr usdRates target with
        | none => rates
        | some ut =>
            let interpolated := interpInner ut busd
            if interpolated.isEmpty then rates
            else setEntry rates target interpolated) acc) t =
      Option.or
        (if t ∈ targets then
          match lookupStr usdRates t with
          | none => none
          | some ut =>
              if (interpInner ut busd).isEmpty then none
              else some (interpInner ut busd)
        else none)
        (lookupStr acc t) := by
  induction targets generalizing acc with
  | nil => simp
  | cons t2 targets ih =>
      rw [List.foldl_cons, ih]
      by_cases ht : t = t2
      · subst ht
        cases hu : lookupStr usdRates t with
        | none => simp [hu]
        | some ut =>
            by_cases hemp : (interpInner ut busd).isEmpty
            · simp [hu, hemp]
            · by_cases hmem : t ∈ targets
              · simp [hu, hemp, hmem]
              · simp [hu, hemp, hmem, lookupStr_setEntry_self]
      · cases hu : lookupStr usdRates t2 with
        | none => simp [hu, ht]
        | some ut =>
            by_cases hemp : (interpInner ut busd).isEmpty
            · simp [hu, hemp, ht]
            · simp only [hu]
              rw [if_neg hemp, lookupStr_setEntry_ne _ _ ht]
              simp [ht]

theorem interpOuter_lookup (usdRates : RatesMap) (busd : List (String × ℚ))
    (targets : List String) (t : String) :
    lookupStr (interpOuter usdRates busd targets) t =
      if t ∈ targets then
        match lookupStr usdRates t with
        | none => none
        | some ut =>
            if (interpInner ut busd).isEmpty then none
            else some (interpInner ut busd)
      else none := by
  unfold interpOuter
  rw [interpOuterFold_lookup]
  simp [lookupStr]

theorem mem_interpOuter {usdRates : RatesMap} {busd : List (String × ℚ)}
    {targets : List String} {p : String × List (String × ℚ)}
    (h : p ∈ interpOuter usdRates busd targets) : p.1 ∈ targets := by
  unfold interpOuter at h
  suffices haux : ∀ acc : RatesMap, p ∈ targets.foldl (fun rates target =>
      match lookupStr usdRates target with
      | none => rates
      | some ut =>
          let interpolated := interpInner ut busd
          if interpolated.isEmpty then rates
          else setEntry rates target interpolated) acc →
      p ∈ acc ∨ p.1 ∈ targets by
    rcases haux [] h with hc | hc
    · simp at hc
    · exact hc
  clear h
  induction targets with
  | nil => intro acc h; exact Or.inl h
  | cons t2 targets ih =>
      intro acc h
      rw [List.foldl_cons] at h
      rcases ih _ h with hacc | hmem
      · cases hu : lookupStr usdRates t2 with
        | none => rw [hu] at hacc; exact Or.inl hacc
        | some ut =>
            rw [hu] at hacc
            have hacc2 : p ∈ (if (interpInner ut busd).isEmpty = true then acc
                else setEntry acc t2 (interpInner ut busd)) := hacc
            by_cases hemp : (interpInner ut busd).isEmpty
            · rw [if_pos hemp] at hacc2
              exact Or.inl hacc2
            · rw [if_neg hemp] at hacc2
              rcases mem_setEntry hacc2 with rfl | hacc3
              · exact Or.inr (List.mem_cons_self _ _)
              · exact Or.inl hacc3
      · exact Or.inr (List.mem_cons_of_mem _ hmem)

theorem mem_interpolateViaUsd {oxr : Fetcher} {store : Store} {base : String}
    {targets : List String} {d : Nat} {rt? : Option String}
    {p : String × List (String × ℚ)}
    (h : p ∈ interpolateViaUsd oxr store base targets d rt?) :
    p.1 ∈ targets := by
  simp only [interpolateViaUsd] at h
  cases hb : lookupStr (getAllRatesForBase store base d rt?) "USD" with
  | none => rw [hb] at h; simp at h
  | some busd =>
      rw [hb] at h
      have h2 : p ∈ (if (usdLegAfterRetry oxr store d rt?).isEmpty = true
          then ([] : RatesMap)
          else interpOuter (usdLegAfterRetry oxr store d rt?) busd targets) := h
      by_cases he : (usdLegAfterRetry oxr store d rt?).isEmpty
      · rw [if_pos he] at h2
        simp at h2
      · rw [if_neg he] at h2
        exact mem_interpOuter h2

end ServiceLemmas

/-- C2: pivot interpolation through USD.  If the `base → USD` map has no
entries the function returns no rates at all; otherwise, for every
requested target, the result holds — per classification present in *both*
the `base → USD` map and the `USD → target` map — exactly the product of
the two legs, and no entry for a classification present in only one leg;
targets outside the requested list never appear. -/
theorem interpolateViaUsd_product_law (oxr : Fetcher) (store : Store)
    (base : String) (targets : List String) (d : Nat) (rt? : Option String) :
    (lookupStr (getAllRatesForBase store base d rt?) "USD" = none →
      interpolateViaUsd oxr store base targets d rt? = [])
    ∧ (∀ busd, lookupStr (getAllRatesForBase store base d rt?) "USD" = some busd →
        ∀ t ∈ targets, ∀ c,
          lookupRT (interpolateViaUsd oxr store base targets d rt?) t c =
            match lookupStr (usdLegAfterRetry oxr store d rt?) t with
            | none => none
            | some ut =>
                match lookupStr busd c, lookupStr ut c with
                | some b, some u => some (b * u)
                | _, _ => none)
    ∧ (∀ t, t ∉ targets →
        lookupStr (interpolateViaUsd oxr store base targets d rt?) t = none) := by
  refine ⟨?_, ?_, ?_⟩
  · intro h
    simp only [interpolateViaUsd]
    rw [h]
  · intro busd hb t ht c
    have hnd : (busd.map Prod.fst).Nodup := getAllRatesForBase_inner_nodup hb
    simp only [interpolateViaUsd]
    rw [hb]
    have hred : (match some busd with
        | none => ([] : RatesMap)
        | some busd =>
            if (usdLegAfterRetry oxr store d rt?).isEmpty = true then []
            else interpOuter (usdLegAfterRetry oxr store d rt?) busd targets) =
        if (usdLegAfterRetry oxr store d rt?).isEmpty = true then ([] : RatesMap)
        else interpOuter (usdLegAfterRetry oxr store d rt?) busd targets := rfl
    rw [hred]
    by_cases he : (usdLegAfterRetry oxr store d rt?).isEmpty
    · rw [if_pos he]
      have hleg : usdLegAfterRetry oxr store d rt? = [] :=
        List.isEmpty_iff.mp he
      rw [hleg]
      rfl
    · rw [if_neg he]
      rw [lookupRT, interpOuter_lookup, if_pos ht]
      cases hu : lookupStr (usdLegAfterRetry oxr store d rt?) t with
      | none => rfl
      | some ut =>
          show (if (interpInner ut busd).isEmpty = true then none
              else some (interpInner ut busd)).bind (fun mm => lookupStr mm c) =
            match lookupStr busd c, lookupStr ut c with
            | some b, some u => some (b * u)
            | _, _ => none
          by_cases hemp : (interpInner ut busd).isEmpty
          · rw [if_pos hemp]
            have hchar := interpInner_lookup ut hnd c
            have hinner : interpInner ut busd = [] := List.isEmpty_iff.mp hemp
            rw [hinner, lookupStr_nil] at hchar
            rw [← hchar]
            rfl
          · rw [if_neg hemp, Option.some_bind]
            exact interpInner_lookup ut hnd c
  · intro t ht
    rw [lookupStr_eq_none_iff]
    intro p hp he
    exact ht (he ▸ mem_interpolateViaUsd hp)

/-- Witness for C2: with `USD→EUR = 2` and `USD→GBP = 3` stored official,
interpolating `EUR→GBP` yields `(1/2) × 3` — the `base→USD` leg times the
`USD→target` leg. -/
theorem interpolateViaUsd_product_law_witness :
    lookupStr (getAllRatesForBase
      [Record.mk "USD" "EUR" 2 "official" 100 "oxr" "ft",
        Record.mk "USD" "GBP" 3 "official" 100 "oxr" "ft"]
      "EUR" 100 (some "official")) "USD" = some [("official", (1 : ℚ)/2)] ∧
    ("GBP" ∈ ["GBP"]) ∧
    lookupRT (interpolateViaUsd failFetch
      [Record.mk "USD" "EUR" 2 "official" 100 "oxr" "ft",
        Record.mk "USD" "GBP" 3 "official" 100 "oxr" "ft"]
      "EUR" ["GBP"] 100 (some "official")) "GBP" "official" =
      some ((1 : ℚ)/2 * 3) := by
  refine ⟨rfl, by simp, ?_⟩
  have h := (interpolateViaUsd_product_law failFetch
    [Record.mk "USD" "EUR" 2 "official" 100 "oxr" "ft",
      Record.mk "USD" "GBP" 3 "official" 100 "oxr" "ft"]
    "EUR" ["GBP"] 100 (some "official")).2.1
    [("official", (1 : ℚ)/2)] rfl "GBP" (by simp) "official"
  exact h.trans rfl

/-- C10: a resolve call with no target list (or an empty one, which Python
treats the same) returns exactly the store projection for the base and
date after the provider checks, with no interpolated entries; likewise when
every requested symbol was found, interpolation does not run. -/
theorem getRates_projection_only (oxr scraper : Fetcher) (store : Store)
    (base : String) (d : Nat) (rt? : Option String) :
    (getRates oxr scraper store base none d rt? =
      getAllRatesForBase
        (storeAfterProviderChecks oxr scraper store base none d) base d rt?)
    ∧ (∀ ss : List String, ss ≠ [] →
        (projectSymbols (getAllRatesForBase
          (storeAfterProviderChecks oxr scraper store base (some ss) d)
          base d rt?) ss).length = ss.length →
        getRates oxr scraper store base (some ss) d rt? =
          projectSymbols (getAllRatesForBase
            (storeAfterProviderChecks oxr scraper store base (some ss) d)
            base d rt?) ss) := by
  constructor
  · rfl
  · intro ss hne hlen
    have hemp : ss.isEmpty = false := by
      cases ss with
      | nil => exact absurd rfl hne
      | cons a l => rfl
    have hexp : getRates oxr scraper store base (some ss) d rt? =
        (if ss.isEmpty = true then
          getAllRatesForBase
            (storeAfterProviderChecks oxr scraper store base (some ss) d)
            base d rt?
        else
          if (projectSymbols (getAllRatesForBase
              (storeAfterProviderChecks oxr scraper store base (some ss) d)
              base d rt?) ss).length < ss.length then
            updateDict
              (projectSymbols (getAllRatesForBase
                (storeAfterProviderChecks oxr scraper store base (some ss) d)
                base d rt?) ss)
              (interpolateViaUsd oxr
                (storeAfterProviderChecks oxr scraper store base (some ss) d)
                base
                (ss.filter (fun s => (lookupStr (projectSymbols
                  (getAllRatesForBase
                    (storeAfterProviderChecks oxr scraper store base (some ss) d)
                    base d rt?) ss) s).isNone))
                d rt?)
          else
            projectSymbols (getAllRatesForBase
              (storeAfterProviderChecks oxr scraper store base (some ss) d)
              base d rt?) ss) := rfl
    rw [hexp, hemp, if_neg Bool.false_ne_true,
      if_neg (fun hc => absurd (hlen ▸ hc) (lt_irrefl _))]

/-- Witness for C10: with all requested symbols found, the result is the
bare projection. -/
theorem getRates_projection_only_witness :
    ((["ARS"] : List String) ≠ []) ∧
    (projectSymbols (getAllRatesForBase (storeAfterProviderChecks failFetch
      failFetch [Record.mk "USD" "ARS" 2 "official" 100 "t" "ft"] "USD"
      (some ["ARS"]) 100) "USD" 100 none) ["ARS"]).length =
      (["ARS"] : List String).length ∧
    getRates failFetch failFetch [Record.mk "USD" "ARS" 2 "official" 100 "t" "ft"]
      "USD" (some ["ARS"]) 100 none =
      projectSymbols (getAllRatesForBase (storeAfterProviderChecks failFetch
        failFetch [Record.mk "USD" "ARS" 2 "official" 100 "t" "ft"] "USD"
        (some ["ARS"]) 100) "USD" 100 none) ["ARS"] := by
  refine ⟨by simp, rfl, ?_⟩
  exact (getRates_projection_only failFetch failFetch
    [Record.mk "USD" "ARS" 2 "official" 100 "t" "ft"] "USD" 100 none).2
    ["ARS"] (by simp) rfl

/-- C8: a currency present in the store projection of the requested symbols
appears in `get_rates`'s final result with exactly its projected value —
interpolation only ever adds currencies that were missing and never
replaces a directly available one. -/
theorem getRates_preserves_projected (oxr scraper : Fetcher) (store : Store)
    (base : String) (ss : List String) (d : Nat) (rt? : Option String)
    (s : String) (m : List (String × ℚ))
    (h : lookupStr (projectSymbols (getAllRatesForBase
        (storeAfterProviderChecks oxr scraper store base (some ss) d)
        base d rt?) ss) s = some m) :
    lookupStr (getRates oxr scraper store base (some ss) d rt?) s = some m := by
  by_cases hemp : ss.isEmpty = true
  · exfalso
    have hnil : ss = [] := List.isEmpty_iff.mp hemp
    subst hnil
    rw [show projectSymbols (getAllRatesForBase
        (storeAfterProviderChecks oxr scraper store base (some []) d)
        base d rt?) [] = [] from rfl, lookupStr_nil] at h
    exact Option.noConfusion h
  · have hexp : getRates oxr scraper store base (some ss) d rt? =
        (if ss.isEmpty = true then
          getAllRatesForBase
            (storeAfterProviderChecks oxr scraper store base (some ss) d)
            base d rt?
        else
          if (projectSymbols (getAllRatesForBase
              (storeAfterProviderChecks oxr scraper store base (some ss) d)
              base d rt?) ss).length < ss.length then
            updateDict
              (projectSymbols (getAllRatesForBase
                (storeAfterProviderChecks oxr scraper store base (some ss) d)
                base d rt?) ss)
              (interpolateViaUsd oxr
                (storeAfterProviderChecks oxr scraper store base (some ss) d)
                base
                (ss.filter (fun s2 => (lookupStr (projectSymbols
                  (getAllRatesForBase
                    (storeAfterProviderChecks oxr scraper store base (some ss) d)
                    base d rt?) ss) s2).isNone))
                d rt?)
          else
            projectSymbols (getAllRatesForBase
              (storeAfterProviderChecks oxr scraper store base (some ss) d)
              base d rt?) ss) := rfl
    rw [hexp, if_neg hemp]
    by_cases hlt : (projectSymbols (getAllRatesForBase
        (storeAfterProviderChecks oxr scraper store base (some ss) d)
        base d rt?) ss).length < ss.length
    · rw [if_pos hlt]
      rw [lookupStr_updateDict_of_none]
      · exact h
      · intro p hp heq
        have h1 := mem_interpolateViaUsd hp
        rw [heq] at h1
        have h2 := (List.mem_filter.mp h1).2
        rw [h] at h2
        exact Option.noConfusion (Option.isNone_iff_eq_none.mp h2)
    · rw [if_neg hlt]
      exact h

/-- Witness for C8: a directly projected currency survives unchanged. -/
theorem getRates_preserves_projected_witness :
    lookupStr (projectSymbols (getAllRatesForBase
      (storeAfterProviderChecks failFetch failFetch
        [Record.mk "USD" "ARS" 2 "official" 100 "t" "ft"] "USD"
        (some ["ARS"]) 100) "USD" 100 none) ["ARS"]) "ARS" =
      some [("official", (2 : ℚ))] ∧
    lookupStr (getRates failFetch failFetch
      [Record.mk "USD" "ARS" 2 "official" 100 "t" "ft"] "USD"
      (some ["ARS"]) 100 none) "ARS" = some [("official", (2 : ℚ))] :=
  ⟨rfl, getRates_preserves_projected failFetch failFetch
    [Record.mk "USD" "ARS" 2 "official" 100 "t" "ft"] "USD" ["ARS"] 100 none
    "ARS" [("official", (2 : ℚ))] rfl⟩

/-- C6: when both provider fetches fail, `get_rates` does not raise — the
exceptions are swallowed at their call sites — and the result is exactly
the resolution computed from the unchanged store: only requested
currencies, each directly projected currency kept with its stored value,
and currencies without data omitted. -/
theorem getRates_graceful_degradation (oxr scraper : Fetcher) (store : Store)
    (base : String) (symbols : Option (List String)) (d : Nat)
    (rt? : Option String)
    (hf : ∀ s, ∃ e, oxr s = Except.error e)
    (hg : ∀ s, ∃ e, scraper s = Except.error e) :
    (getRates oxr scraper store base symbols d rt? =
      resolveFromStore store base symbols d rt?)
    ∧ (∀ ss, symbols = some ss → ss ≠ [] →
        ∀ s mm, lookupStr (getRates oxr scraper store base symbols d rt?) s =
          some mm → s ∈ ss)
    ∧ (∀ ss, symbols = some ss → ∀ s ∈ ss, ∀ mm,
        lookupStr (getAllRatesForBase store base d rt?) s = some mm →
        lookupStr (getRates oxr scraper store base symbols d rt?) s = some mm) := by
  refine ⟨?_, ?_, ?_⟩
  · simp only [getRates, resolveFromStore,
      storeAfterProviderChecks_fail hf hg,
      storeAfterProviderChecks_fail failFetch_fails failFetch_fails,
      interpolateViaUsd_fail hf]
  · intro ss hsym hne s mm hlk
    subst hsym
    have hemp : ss.isEmpty = false := by
      cases ss with
      | nil => exact absurd rfl hne
      | cons a l => rfl
    have hexp : getRates oxr scraper store base (some ss) d rt? =
        (if ss.isEmpty = true then
          getAllRatesForBase
            (storeAfterProviderChecks oxr scraper store base (some ss) d)
            base d rt?
        else
          if (projectSymbols (getAllRatesForBase
              (storeAfterProviderChecks oxr scraper store base (some ss) d)
              base d rt?) ss).length < ss.length then
            updateDict
              (projectSymbols (getAllRatesForBase
                (storeAfterProviderChecks oxr scraper store base (some ss) d)
                base d rt?) ss)
              (interpolateViaUsd oxr
                (storeAfterProviderChecks oxr scraper store base (some ss) d)
                base
                (ss.filter (fun s2 => (lookupStr (projectSymbols
                  (getAllRatesForBase
                    (storeAfterProviderChecks oxr scraper store base (some ss) d)
                    base d rt?) ss) s2).isNone))
                d rt?)
          else
            projectSymbols (getAllRatesForBase
              (storeAfterProviderChecks oxr scraper store base (some ss) d)
              base d rt?) ss) := rfl
    rw [hexp, hemp, if_neg Bool.false_ne_true] at hlk
    by_cases hlt : (projectSymbols (getAllRatesForBase
        (storeAfterProviderChecks oxr scraper store base (some ss) d)
        base d rt?) ss).length < ss.length
    · rw [if_pos hlt] at hlk
      have hp := mem_of_lookupStr_eq_some hlk
      rcases mem_updateDict hp with hr | hk
      · unfold projectSymbols at hr
        rcases projectFold_mem hr with h0 | h1
        · simp at h0
        · exact h1
      · obtain ⟨p, hpmem, hpfst⟩ := List.mem_map.mp hk
        have h1 := mem_interpolateViaUsd hpmem
        rw [hpfst] at h1
        exact (List.mem_filter.mp h1).1
    · rw [if_neg hlt] at hlk
      have hp := mem_of_lookupStr_eq_some hlk
      unfold projectSymbols at hp
      rcases projectFold_mem hp with h0 | h1
      · simp at h0
      · exact h1
  · intro ss hsym s hss mm hmm
    subst hsym
    have hstore2 : storeAfterProviderChecks oxr scraper store base (some ss) d =
        store := storeAfterProviderChecks_fail hf hg store base (some ss) d
    by_cases hemp : ss.isEmpty = true
    · exfalso
      have hnil : ss = [] := List.isEmpty_iff.mp hemp
      subst hnil
      simp at hss
    · have hexp : getRates oxr scraper store base (some ss) d rt? =
          (if ss.isEmpty = true then
            getAllRatesForBase
              (storeAfterProviderChecks oxr scraper store base (some ss) d)
              base d rt?
          else
            if (projectSymbols (getAllRatesForBase
                (storeAfterProviderChecks oxr scraper store base (some ss) d)
                base d rt?) ss).length < ss.length then
              updateDict
                (projectSymbols (getAllRatesForBase
                  (storeAfterProviderChecks oxr scraper store base (some ss) d)
                  base d rt?) ss)
                (interpolateViaUsd oxr
                  (storeAfterProviderChecks oxr scraper store base (some ss) d)
                  base
                  (ss.filter (fun s2 => (lookupStr (projectSymbols
                    (getAllRatesForBase
                      (storeAfterProviderChecks oxr scraper store base (some ss) d)
                      base d rt?) ss) s2).isNone))
                  d rt?)
            else
              projectSymbols (getAllRatesForBase
                (storeAfterProviderChecks oxr scraper store base (some ss) d)
                base d rt?) ss) := rfl
      rw [hexp, if_neg hemp, hstore2]
      have hrs : lookupStr (projectSymbols
          (getAllRatesForBase store base d rt?) ss) s = some mm := by
        rw [projectSymbols_lookup, if_pos hss, hmm]
      by_cases hlt : (projectSymbols
          (getAllRatesForBase store base d rt?) ss).length < ss.length
      · rw [if_pos hlt]
        rw [lookupStr_updateDict_of_none]
        · exact hrs
        · intro p hp heq
          have h1 := mem_interpolateViaUsd hp
          rw [heq] at h1
          have h2 := (List.mem_filter.mp h1).2
          rw [hrs] at h2
          exact Option.noConfusion (Option.isNone_iff_eq_none.mp h2)
      · rw [if_neg hlt]
        exact hrs

/-- Witness for C6: with both providers failing, the cached `USD→ARS` is
returned, the uncached `GBP` is omitted, and nothing is raised. -/
theorem getRates_graceful_degradation_witness :
    (getRates failFetch failFetch [Record.mk "USD" "ARS" 2 "official" 100 "t" "ft"]
      "USD" (some ["ARS", "GBP"]) 100 none =
      resolveFromStore [Record.mk "USD" "ARS" 2 "official" 100 "t" "ft"]
        "USD" (some ["ARS", "GBP"]) 100 none) ∧
    lookupStr (getAllRatesForBase [Record.mk "USD" "ARS" 2 "official" 100 "t" "ft"]
      "USD" 100 none) "ARS" = some [("official", (2 : ℚ))] ∧
    lookupStr (getRates failFetch failFetch
      [Record.mk "USD" "ARS" 2 "official" 100 "t" "ft"]
      "USD" (some ["ARS", "GBP"]) 100 none) "ARS" = some [("official", (2 : ℚ))] ∧
    lookupStr (getRates failFetch failFetch
      [Record.mk "USD" "ARS" 2 "official" 100 "t" "ft"]
      "USD" (some ["ARS", "GBP"]) 100 none) "GBP" = none := by
  refine ⟨(getRates_graceful_degradation failFetch failFetch
    [Record.mk "USD" "ARS" 2 "official" 100 "t" "ft"] "USD"
    (some ["ARS", "GBP"]) 100 none failFetch_fails failFetch_fails).1,
    rfl, ?_, rfl⟩
  exact (getRates_graceful_degradation failFetch failFetch
    [Record.mk "USD" "ARS" 2 "official" 100 "t" "ft"] "USD"
    (some ["ARS", "GBP"]) 100 none failFetch_fails failFetch_fails).2.2
    ["ARS", "GBP"] rfl "ARS" (by simp) [("official", (2 : ℚ))] rfl

section IngestionLemmas

theorem oxr_fold_preserve (d : Nat) (fa : String) (rates : List (String × ℚ))
    (s : Store) {c : String} (h : ∀ p ∈ rates, p.1 ≠ c) :
    findRecord (rates.foldl (oxrStep d fa) s) "USD" c d "official" =
      findRecord s "USD" c d "official" := by
  induction rates generalizing s with
  | nil => rfl
  | cons p rates ih =>
      rw [List.foldl_cons, ih _ (fun q hq => h q (List.mem_cons_of_mem _ hq))]
      unfold oxrStep
      by_cases hp : (p.1 == "USD") = true
      · rw [if_pos hp]
      · rw [if_neg hp]
        refine findRecord_insertRate_other _ _ _ _ _ _ _ _ ?_
        intro hc
        simp only [Prod.mk.injEq] at hc
        exact h p (List.mem_cons_self _ _) hc.2.1.symm

theorem storeOxrRates_lookup (store : Store) (rates : List (String × ℚ))
    (d : Nat) (fa : String) (c : String) (q : ℚ)
    (hnd : (rates.map Prod.fst).Nodup) (hmem : (c, q) ∈ rates)
    (hc : c ≠ "USD") :
    findRecord (storeOxrRates store rates d fa) "USD" c d "official" =
      some (Record.mk "USD" c q "official" d "openexchangerates" fa) := by
  unfold storeOxrRates
  induction rates generalizing store with
  | nil => simp at hmem
  | cons p rates ih =>
      rw [List.map_cons, List.nodup_cons] at hnd
      rw [List.foldl_cons]
      rcases List.mem_cons.mp hmem with heq | htail
      · have hpc : p = (c, q) := heq.symm
        subst hpc
        have hrest : ∀ p2 ∈ rates, p2.1 ≠ c := by
          intro p2 hp2 he
          apply hnd.1
          rw [← he]
          show p2.1 ∈ List.map Prod.fst rates
          exact List.mem_map_of_mem Prod.fst hp2
        rw [oxr_fold_preserve d fa rates _ hrest]
        unfold oxrStep
        rw [if_neg (by simp [hc])]
        exact findRecord_insertRate_self _ _ _ _ _ _ _ _
      · exact ih _ hnd.2 htail

theorem findRecord_arsWeekendStep_other (fa : String) (s : Store)
    (row : Nat × ℚ × ℚ) {f t : String} {dd : Nat} {rt : String}
    (h : pythonWeekday row.1 = 4 → dd ≠ row.1 + 1 ∧ dd ≠ row.1 + 2) :
    findRecord (arsWeekendStep fa s row) f t dd rt =
      findRecord s f t dd rt := by
  unfold arsWeekendStep
  by_cases hf : (pythonWeekday row.1 == 4) = true
  · rw [if_pos hf]
    obtain ⟨h1, h2⟩ := h (by simpa using hf)
    rw [findRecord_insertRate_other _ _ _ _ _ _ _ _
        (fun hc => by simp only [Prod.mk.injEq] at hc; exact h2 hc.2.2.1),
      findRecord_insertRate_other _ _ _ _ _ _ _ _
        (fun hc => by simp only [Prod.mk.injEq] at hc; exact h2 hc.2.2.1),
      findRecord_insertRate_other _ _ _ _ _ _ _ _
        (fun hc => by simp only [Prod.mk.injEq] at hc; exact h1 hc.2.2.1),
      findRecord_insertRate_other _ _ _ _ _ _ _ _
        (fun hc => by simp only [Prod.mk.injEq] at hc; exact h1 hc.2.2.1)]
  · rw [if_neg hf]

theorem weekend_fold_preserve (fa : String) (batch : List (Nat × ℚ × ℚ))
    (s : Store) {f t : String} {dd : Nat} {rt : String}
    (h : ∀ row ∈ batch, pythonWeekday row.1 = 4 →
      dd ≠ row.1 + 1 ∧ dd ≠ row.1 + 2) :
    findRecord (batch.foldl (arsWeekendStep fa) s) f t dd rt =
      findRecord s f t dd rt := by
  induction batch generalizing s with
  | nil => rfl
  | cons row batch ih =>
      rw [List.foldl_cons, ih _ (fun r hr => h r (List.mem_cons_of_mem _ hr)),
        findRecord_arsWeekendStep_other fa s row (h row (List.mem_cons_self _ _))]

theorem findRecord_arsWeekendStep_friday (fa : String) (s : Store)
    (row : Nat × ℚ × ℚ) (hfr : pythonWeekday row.1 = 4) :
    findRecord (arsWeekendStep fa s row) "USD" "ARS" (row.1 + 1) "blue" =
      some (Record.mk "USD" "ARS" row.2.1 "blue" (row.1 + 1)
        "ambito (weekend)" fa) ∧
    findRecord (arsWeekendStep fa s row) "ARS" "USD" (row.1 + 1) "blue" =
      some (Record.mk "ARS" "USD" (1 / row.2.2) "blue" (row.1 + 1)
        "ambito (weekend)" fa) ∧
    findRecord (arsWeekendStep fa s row) "USD" "ARS" (row.1 + 2) "blue" =
      some (Record.mk "USD" "ARS" row.2.1 "blue" (row.1 + 2)
        "ambito (weekend)" fa) ∧
    findRecord (arsWeekendStep fa s row) "ARS" "USD" (row.1 + 2) "blue" =
      some (Record.mk "ARS" "USD" (1 / row.2.2) "blue" (row.1 + 2)
        "ambito (weekend)" fa) := by
  unfold arsWeekendStep
  rw [if_pos (by simp [hfr])]
  refine ⟨?_, ?_, ?_, ?_⟩
  · rw [findRecord_insertRate_other _ _ _ _ _ _ _ _
        (fun hc => by simp only [Prod.mk.injEq] at hc; exact absurd hc.1 (by decide)),
      findRecord_insertRate_other _ _ _ _ _ _ _ _
        (fun hc => by simp only [Prod.mk.injEq] at hc; omega),
      findRecord_insertRate_other _ _ _ _ _ _ _ _
        (fun hc => by simp only [Prod.mk.injEq] at hc; exact absurd hc.1 (by decide))]
    exact findRecord_insertRate_self _ _ _ _ _ _ _ _
  · rw [findRecord_insertRate_other _ _ _ _ _ _ _ _
        (fun hc => by simp only [Prod.mk.injEq] at hc; omega),
      findRecord_insertRate_other _ _ _ _ _ _ _ _
        (fun hc => by simp only [Prod.mk.injEq] at hc; exact absurd hc.1 (by decide))]
    exact findRecord_insertRate_self _ _ _ _ _ _ _ _
  · rw [findRecord_insertRate_other _ _ _ _ _ _ _ _
        (fun hc => by simp only [Prod.mk.injEq] at hc; exact absurd hc.1 (by decide))]
    exact findRecord_insertRate_self _ _ _ _ _ _ _ _
  · exact findRecord_insertRate_self _ _ _ _ _ _ _ _

theorem weekend_fold_friday (fa : String) (batch : List (Nat × ℚ × ℚ))
    (d : Nat) (compra venta : ℚ)
    (hmem : (d, compra, venta) ∈ batch)
    (hnd : (batch.map Prod.fst).Nodup)
    (hfri : pythonWeekday d = 4) (s : Store) :
    findRecord (batch.foldl (arsWeekendStep fa) s) "USD" "ARS" (d + 1) "blue" =
      some (Record.mk "USD" "ARS" compra "blue" (d + 1) "ambito (weekend)" fa) ∧
    findRecord (batch.foldl (arsWeekendStep fa) s) "ARS" "USD" (d + 1) "blue" =
      some (Record.mk "ARS" "USD" (1 / venta) "blue" (d + 1)
        "ambito (weekend)" fa) ∧
    findRecord (batch.foldl (arsWeekendStep fa) s) "USD" "ARS" (d + 2) "blue" =
      some (Record.mk "USD" "ARS" compra "blue" (d + 2) "ambito (weekend)" fa) ∧
    findRecord (batch.foldl (arsWeekendStep fa) s) "ARS" "USD" (d + 2) "blue" =
      some (Record.mk "ARS" "USD" (1 / venta) "blue" (d + 2)
        "ambito (weekend)" fa) := by
  induction batch generalizing s with
  | nil => simp at hmem
  | cons row batch ih =>
      rw [List.map_cons, List.nodup_cons] at hnd
      rw [List.foldl_cons]
      rcases List.mem_cons.mp hmem with heq | htail
      · have hrow : row = (d, compra, venta) := heq.symm
        subst hrow
        have hrest : ∀ row2 ∈ batch, row2.1 ≠ d := by
          intro row2 hr2 he
          apply hnd.1
          rw [← he]
          show row2.1 ∈ List.map Prod.fst batch
          exact List.mem_map_of_mem Prod.fst hr2
        have hpres1 : ∀ row2 ∈ batch, pythonWeekday row2.1 = 4 →
            d + 1 ≠ row2.1 + 1 ∧ d + 1 ≠ row2.1 + 2 := by
          intro row2 hr2 hf2
          have hne := hrest row2 hr2
          unfold pythonWeekday at hfri hf2
          omega
        have hpres2 : ∀ row2 ∈ batch, pythonWeekday row2.1 = 4 →
            d + 2 ≠ row2.1 + 1 ∧ d + 2 ≠ row2.1 + 2 := by
          intro row2 hr2 hf2
          have hne := hrest row2 hr2
          unfold pythonWeekday at hfri hf2
          omega
        obtain ⟨w1, w2, w3, w4⟩ := findRecord_arsWeekendStep_friday fa s
          (d, compra, venta) hfri
        exact ⟨(weekend_fold_preserve fa batch _ hpres1).trans w1,
          (weekend_fold_preserve fa batch _ hpres1).trans w2,
          (weekend_fold_preserve fa batch _ hpres2).trans w3,
          (weekend_fold_preserve fa batch _ hpres2).trans w4⟩
      · exact ih htail hnd.2 _

end IngestionLemmas

/-- C7: ingesting an alternative-market batch stores every Friday-dated
row additionally under the following Saturday and Sunday, with the same
rate values (`compra` for `USD→ARS`, `1/venta` for `ARS→USD`), under the
annotated source `"ambito (weekend)"` distinct from the direct rows'
`"ambito"`, and those weekend rates are retrievable afterwards. -/
theorem weekend_carry (store : Store) (batch : List (Nat × ℚ × ℚ))
    (fa : String) (d : Nat) (compra venta : ℚ)
    (hmem : (d, compra, venta) ∈ batch)
    (hnd : (batch.map Prod.fst).Nodup)
    (hfri : pythonWeekday d = 4) :
    findRecord (scrapeAndStoreArsRates store batch fa) "USD" "ARS" (d + 1)
      "blue" = some (Record.mk "USD" "ARS" compra "blue" (d + 1)
        "ambito (weekend)" fa) ∧
    findRecord (scrapeAndStoreArsRates store batch fa) "ARS" "USD" (d + 1)
      "blue" = some (Record.mk "ARS" "USD" (1 / venta) "blue" (d + 1)
        "ambito (weekend)" fa) ∧
    findRecord (scrapeAndStoreArsRates store batch fa) "USD" "ARS" (d + 2)
      "blue" = some (Record.mk "USD" "ARS" compra "blue" (d + 2)
        "ambito (weekend)" fa) ∧
    findRecord (scrapeAndStoreArsRates store batch fa) "ARS" "USD" (d + 2)
      "blue" = some (Record.mk "ARS" "USD" (1 / venta) "blue" (d + 2)
        "ambito (weekend)" fa) ∧
    getRate (scrapeAndStoreArsRates store batch fa) "USD" "ARS" (d + 1)
      (some "blue") = some compra ∧
    getRate (scrapeAndStoreArsRates store batch fa) "ARS" "USD" (d + 1)
      (some "blue") = some (1 / venta) ∧
    getRate (scrapeAndStoreArsRates store batch fa) "USD" "ARS" (d + 2)
      (some "blue") = some compra ∧
    getRate (scrapeAndStoreArsRates store batch fa) "ARS" "USD" (d + 2)
      (some "blue") = some (1 / venta) ∧
    ("ambito (weekend)" ≠ "ambito") := by
  obtain ⟨w1, w2, w3, w4⟩ := weekend_fold_friday fa batch d compra venta hmem
    hnd hfri (storeArsDirect store batch fa)
  have hw1 : findRecord (scrapeAndStoreArsRates store batch fa) "USD" "ARS"
      (d + 1) "blue" = some (Record.mk "USD" "ARS" compra "blue" (d + 1)
        "ambito (weekend)" fa) := w1
  have hw2 : findRecord (scrapeAndStoreArsRates store batch fa) "ARS" "USD"
      (d + 1) "blue" = some (Record.mk "ARS" "USD" (1 / venta) "blue" (d + 1)
        "ambito (weekend)" fa) := w2
  have hw3 : findRecord (scrapeAndStoreArsRates store batch fa) "USD" "ARS"
      (d + 2) "blue" = some (Record.mk "USD" "ARS" compra "blue" (d + 2)
        "ambito (weekend)" fa) := w3
  have hw4 : findRecord (scrapeAndStoreArsRates store batch fa) "ARS" "USD"
      (d + 2) "blue" = some (Record.mk "ARS" "USD" (1 / venta) "blue" (d + 2)
        "ambito (weekend)" fa) := w4
  refine ⟨hw1, hw2, hw3, hw4, ?_, ?_, ?_, ?_, by decide⟩
  · simp only [getRate]
    rw [hw1]
    rfl
  · simp only [getRate]
    rw [hw2]
    rfl
  · simp only [getRate]
    rw [hw3]
    rfl
  · simp only [getRate]
    rw [hw4]
    rfl

/-- Witness for C7: ingesting a batch holding one Friday (day 1, i.e.
1970-01-02) with `compra = 100`, `venta = 110` makes the Saturday and
Sunday rates retrievable. -/
theorem weekend_carry_witness :
    ((1 : Nat), (100 : ℚ), (110 : ℚ)) ∈ [((1 : Nat), (100 : ℚ), (110 : ℚ))] ∧
    pythonWeekday 1 = 4 ∧
    getRate (scrapeAndStoreArsRates [] [((1 : Nat), (100 : ℚ), (110 : ℚ))] "ft")
      "USD" "ARS" 2 (some "blue") = some 100 ∧
    getRate (scrapeAndStoreArsRates [] [((1 : Nat), (100 : ℚ), (110 : ℚ))] "ft")
      "ARS" "USD" 3 (some "blue") = some (1 / 110) := by
  have h := weekend_carry [] [((1 : Nat), (100 : ℚ), (110 : ℚ))] "ft" 1 100 110
    (List.mem_cons_self _ _) (by decide) rfl
  exact ⟨List.mem_cons_self _ _, rfl, h.2.2.2.2.1, h.2.2.2.2.2.2.2.1⟩

/-- C5 (amended): the write paths perform no positivity validation — the
store's put and the official-provider ingestion store any rate value
verbatim, including non-positive ones; the alternative-market ingestion's
row filter discards only missing or zero parsed values (Python truthiness),
letting negative values through; positivity of read results is instead
enforced by the bidirectional view's `rate > 0` filters. -/
theorem write_paths_no_positivity_check :
    (∀ (store : Store) (f t : String) (q : ℚ) (rt : String) (d : Nat)
      (src fa : String),
      getRate (insertRate store f t q rt d src fa) f t d (some rt) = some q)
    ∧ (∀ (store : Store) (rates : List (String × ℚ)) (d : Nat) (fa : String)
        (c : String) (q : ℚ), (rates.map Prod.fst).Nodup → (c, q) ∈ rates →
        c ≠ "USD" →
        getRate (storeOxrRates store rates d fa) "USD" c d (some "official") =
          some q)
    ∧ (∀ compra venta : Option ℚ, keepRow compra venta = true ↔
        ∃ qc qv, compra = some qc ∧ venta = some qv ∧ qc ≠ 0 ∧ qv ≠ 0)
    ∧ (∀ store : Store, ∀ v ∈ bidirectionalView store, 0 < v.rate) := by
  refine ⟨?_, ?_, ?_, fun store v hv => view_rate_pos hv⟩
  · intro store f t q rt d src fa
    simp only [getRate]
    rw [findRecord_insertRate_self]
    rfl
  · intro store rates d fa c q hnd hmem hc
    simp only [getRate]
    rw [storeOxrRates_lookup store rates d fa c q hnd hmem hc]
    rfl
  · intro compra venta
    cases compra with
    | none => simp [keepRow]
    | some qc =>
        cases venta with
        | none => simp [keepRow]
        | some qv =>
            simp only [keepRow, Bool.and_eq_true, Bool.not_eq_true',
              beq_eq_false_iff_ne, Option.some.injEq]
            constructor
            · rintro ⟨h1, h2⟩
              exact ⟨qc, qv, rfl, rfl, h1, h2⟩
            · rintro ⟨qc2, qv2, h3, h4, h5, h6⟩
              exact ⟨h3 ▸ h5, h4 ▸ h6⟩

/-- Witness for the amended C5: verbatim storage through each path and a
kept row with both values present and non-zero. -/
theorem write_paths_no_positivity_check_witness :
    getRate (insertRate [] "USD" "ARS" 5 "blue" 100 "test" "ft")
      "USD" "ARS" 100 (some "blue") = some 5 ∧
    getRate (storeOxrRates [] [("EUR", (7 : ℚ))] 100 "ft")
      "USD" "EUR" 100 (some "official") = some 7 ∧
    keepRow (some 3) (some 4) = true := by
  refine ⟨?_, ?_, ?_⟩
  · exact write_paths_no_positivity_check.1 [] "USD" "ARS" 5 "blue" 100
      "test" "ft"
  · exact write_paths_no_positivity_check.2.1 [] [("EUR", (7 : ℚ))] 100 "ft"
      "EUR" 7 (by decide) (List.mem_cons_self _ _) (by decide)
  · exact (write_paths_no_positivity_check.2.2.1 (some 3) (some 4)).mpr
      ⟨3, 4, rfl, rfl, by norm_num, by norm_num⟩

/-- Counterexample to C5 as stated: both the store's put and the
official-provider storage loop store a negative rate verbatim — a
non-positive rate *is* stored, refuting "never stored". -/
theorem write_paths_no_positivity_check_counterexample :
    getRate (insertRate [] "USD" "EUR" (-1) "official" 100 "oxr" "ft")
      "USD" "EUR" 100 (some "official") = some (-1) ∧
    ((-1 : ℚ) ≤ 0) ∧
    getRate (storeOxrRates [] [("EUR", (-1 : ℚ))] 100 "ft")
      "USD" "EUR" 100 (some "official") = some (-1) :=
  ⟨rfl, by norm_num, rfl⟩

end DosMangos
